import Mathlib

/-!
# multipath-udp: a shallow embedding of the Muxer, the Demuxer and the Auto-Binder

Sources embedded here:

* `pkg/muxer/muxer.go`            (the receive loop started by `NewMuxer`)
* `pkg/demuxer/demuxer.go`        (the receive loop started by `NewDemuxer`, `GetSession`)
* `pkg/networking/networking.go`  (`getAddresses`, `makeSet`, `diff`, `AutoBinder.Bind`)

Conventions.

* A byte slice is a list of bytes; `msg[:n]`, the bytes that one `ReadFromUDP` returned, is the
  datagram `b` handed to a loop body.
* A Go `map` is the list of its entries, read with `mapGet` and written with `mapSet`.
* Every call a loop body makes on a collaborator (socket, registry, deduplicator, sink, sender,
  the `add`/`sub` callbacks) is recorded, in program order, in the list of events the body returns.
* A closure is the record of the variables it captured.
-/

/-- A byte slice (`[]byte`). -/
abbrev Bytes := List (Fin 256)

/-- A socket address (`*net.UDPAddr`) of a peer, an interface or a dial target. The Muxer and the
Demuxer use an address as a write target and through its `String()` text (map keys, the `%s` of
the sender key), so an address is carried as that text. -/
structure UDPAddr where
  text : String
deriving DecidableEq

/-! ## Go maps -/

/-- Lookup `m[k]` in a Go map: `some v` when the key is present (the `ok` result), else `none`. -/
def mapGet {κ ν : Type} [DecidableEq κ] (k : κ) : List (κ × ν) → Option ν
  | [] => none
  | e :: rest => if e.1 = k then some e.2 else mapGet k rest

/-- Assignment `m[k] = v` in a Go map: the value of an existing key is replaced, a new key is
added; no other entry changes. -/
def mapSet {κ ν : Type} [DecidableEq κ] (k : κ) (v : ν) : List (κ × ν) → List (κ × ν)
  | [] => [(k, v)]
  | e :: rest => if e.1 = k then (k, v) :: rest else e :: mapSet k v rest

/-! ## encoding/hex -/

/-- One lower-case hexadecimal digit (the table `0123456789abcdef` of `encoding/hex`). -/
def hexDigit (n : Nat) : Char :=
  match n with
  | 0 => '0' | 1 => '1' | 2 => '2' | 3 => '3' | 4 => '4' | 5 => '5' | 6 => '6' | 7 => '7'
  | 8 => '8' | 9 => '9' | 10 => 'a' | 11 => 'b' | 12 => 'c' | 13 => 'd' | 14 => 'e' | _ => 'f'

/-- The characters of `hex.EncodeToString`: two digits for every byte, high nibble first. -/
def hexChars : Bytes → List Char
  | [] => []
  | b :: bs => hexDigit (b.val / 16) :: hexDigit (b.val % 16) :: hexChars bs

/-- Go `hex.EncodeToString`. -/
def EncodeToString (b : Bytes) : String := String.mk (hexChars b)

/-! ## package muxer -/

namespace muxer

/-- Modelled from the spec: the Muxer's session registry `AddrToSessionMap`, whose source file is
not under `src/`. The spec describes it as the association peer-address to token together with the
inverse token to set-of-peer-addresses, where several peer addresses may share one token. It is
kept as the map from peer address to token; the inverse is read off that map. -/
structure AddrToSessionMap where
  entries : List (UDPAddr × Bytes)
deriving DecidableEq

/-- Modelled from the spec: `NewAddrToSessionMap()`, the empty registry. -/
def NewAddrToSessionMap : AddrToSessionMap := ⟨[]⟩

/-- Modelled from the spec: `GetSession(addr)`, the token registered for a peer address; `none`
stands for the result `ok = false`. -/
def AddrToSessionMap.GetSession (r : AddrToSessionMap) (addr : UDPAddr) : Option Bytes :=
  mapGet addr r.entries

/-- Modelled from the spec: `Set(addr, session)`, which associates the peer address with the
token. -/
def AddrToSessionMap.Set (r : AddrToSessionMap) (addr : UDPAddr) (session : Bytes) :
    AddrToSessionMap :=
  ⟨mapSet addr session r.entries⟩

/-- Modelled from the spec: `GetUDPAddrs(session)`, the set of peer addresses currently associated
with the token. -/
def AddrToSessionMap.GetUDPAddrs (r : AddrToSessionMap) (session : Bytes) : List UDPAddr :=
  (r.entries.filter (fun e => decide (e.2 = session))).map Prod.fst

/-- What the receive loop of the Muxer does to its collaborators. -/
inductive Event where
  /-- The call `m.sessions.Set(addr, session)`. -/
  | Set (addr : UDPAddr) (session : Bytes)
  /-- The call `conn.WriteToUDP(b, addr)`. -/
  | WriteToUDP (b : Bytes) (addr : UDPAddr)
  /-- The call `m.deduplicator.Receive(key, b)` together with the boolean it returned. -/
  | Receive (key : String) (b : Bytes) (unique : Bool)
  /-- The call `NewSink(dial, callback)` whose callback captured `session`; the sink is stored
  under `key`. -/
  | NewSink (key : String) (session : Bytes)
  /-- The call `sink.Write(b)` on the sink stored under `key`. -/
  | SinkWrite (key : String) (b : Bytes)
deriving DecidableEq

/-- A Path Sink as the Muxer sees it: the arguments of `NewSink`. The callback is the closure of
muxer.go lines 88-93; `session` is the variable it captured. -/
structure Sink where
  dial : UDPAddr
  session : Bytes
deriving DecidableEq

/-- The tables of `type Muxer struct`. The deduplicator (`networking.PacketDeduplicator`, source
not under `src/`) is a state of type `δ`, changed only through its `Receive`. -/
structure Muxer (δ : Type) where
  sessions : AddrToSessionMap
  sinks : List (String × Sink)
  deduplicator : δ

/-- The tables `NewMuxer` starts with. -/
def NewMuxer {δ : Type} (deduplicator : δ) : Muxer δ :=
  { sessions := NewAddrToSessionMap, sinks := [], deduplicator := deduplicator }

/-- One iteration of the receive loop of `NewMuxer` (muxer.go lines 57-97) for a datagram
`b = msg[:n]` read from `senderAddr`. `Receive` is the deduplicator's method. -/
def handle {δ : Type} (Receive : δ → String → Bytes → Bool × δ) (dial : UDPAddr)
    (m : Muxer δ) (senderAddr : UDPAddr) (b : Bytes) : Muxer δ × List Event :=
  match m.sessions.GetSession senderAddr with
  | none =>
    -- a new session: the inbound message is the session id
    let session := b
    let r := Receive m.deduplicator (EncodeToString session) b
    ({ m with sessions := m.sessions.Set senderAddr session, deduplicator := r.2 },
      [Event.Set senderAddr session, Event.WriteToUDP session senderAddr,
       Event.Receive (EncodeToString session) b r.1])
  | some session =>
    if b = session then
      -- duplicate handshake
      (m, [Event.WriteToUDP session senderAddr])
    else
      let key := EncodeToString session
      -- the result of Receive is only logged; the block below is guarded by `if true`
      let r := Receive m.deduplicator key b
      match mapGet key m.sinks with
      | some _ =>
        ({ m with deduplicator := r.2 }, [Event.Receive key b r.1, Event.SinkWrite key b])
      | none =>
        ({ m with deduplicator := r.2, sinks := mapSet key ⟨dial, session⟩ m.sinks },
          [Event.Receive key b r.1, Event.NewSink key session, Event.SinkWrite key b])

/-- The receive loop over the datagrams read, in order, until the read error that ends it. -/
def run {δ : Type} (Receive : δ → String → Bytes → Bool × δ) (dial : UDPAddr) :
    Muxer δ → List (UDPAddr × Bytes) → Muxer δ × List Event
  | m, [] => (m, [])
  | m, x :: rest =>
    let r := handle Receive dial m x.1 x.2
    let r2 := run Receive dial r.1 rest
    (r2.1, r.2 ++ r2.2)

/-- The callback given to `NewSink` (muxer.go lines 88-93), run on a return datagram `msg` while
the Muxer's tables are `m`. -/
def Sink.callback {δ : Type} (m : Muxer δ) (sink : Sink) (msg : Bytes) : List Event :=
  (m.sessions.GetUDPAddrs sink.session).map (fun sender => Event.WriteToUDP msg sender)

/-- The datagram a peer sent first in a sequence of inputs. -/
def firstDatagram (inputs : List (UDPAddr × Bytes)) (p : UDPAddr) : Option Bytes :=
  (inputs.find? (fun x => decide (x.1 = p))).map Prod.snd

/-- Whether an event is the call `sessions.Set` for the peer `p`. -/
def Event.isSetFor (p : UDPAddr) : Event → Bool
  | Event.Set addr _ => decide (addr = p)
  | _ => false

/-- Whether an event is a call `Write` on a Path Sink. -/
def Event.isSinkWrite : Event → Bool
  | Event.SinkWrite _ _ => true
  | _ => false

/-- Whether an event is a call `NewSink`. -/
def Event.isNewSink : Event → Bool
  | Event.NewSink _ _ => true
  | _ => false

/-- Every sink is stored under the hex text of the token its callback captured. -/
def SinksKeyed {δ : Type} (m : Muxer δ) : Prop :=
  ∀ k s, mapGet k m.sinks = some s → k = EncodeToString s.session

/-- Modelled from the spec: `networking.PacketDeduplicator`, whose source file is not under
`src/`. Per session key it keeps a bounded, ordered window of the payloads seen recently; the
fingerprint of a payload is taken to be its content. -/
structure PacketDeduplicator where
  capacity : Nat
  windows : List (String × List Bytes)
deriving DecidableEq

/-- Modelled from the spec: `NewPacketDeduplicator()`, with empty windows. -/
def NewPacketDeduplicator (capacity : Nat) : PacketDeduplicator :=
  { capacity := capacity, windows := [] }

/-- Modelled from the spec: `Receive(sessionKey, payload)` returns `true` the first time a payload
is seen for the session key within the retention window and `false` on a repeat; on overflow the
oldest fingerprint is evicted. -/
def PacketDeduplicator.Receive (d : PacketDeduplicator) (key : String) (payload : Bytes) :
    Bool × PacketDeduplicator :=
  let window := (mapGet key d.windows).getD []
  if payload ∈ window then (false, d)
  else
    let grown := window ++ [payload]
    (true, { d with windows := mapSet key (grown.drop (grown.length - d.capacity)) d.windows })

end muxer

/-! ## package demuxer -/

namespace demuxer

/-- A Path Sender as the Demuxer sees it: the arguments of `NewSender`. `peer` is the variable
`senderAddr` captured by the receive callback of demuxer.go lines 75-79. -/
structure Sender where
  session : Bytes
  iface : UDPAddr
  dial : UDPAddr
  peer : UDPAddr
  handshakeTimeout : Nat
deriving DecidableEq

/-- What the receive loop of the Demuxer does to its Path Senders. -/
inductive Event where
  /-- The call `NewSender(session, iface, dial, callback, timeout)`; the sender is stored under
  `key`. -/
  | NewSender (key : String) (session : Bytes) (iface : UDPAddr) (dial : UDPAddr)
  /-- The call `sender.Write(b)` on the sender stored under `key`. -/
  | SenderWrite (key : String) (b : Bytes)
deriving DecidableEq

/-- The tables of `type Demuxer struct`. The Interface Membership Set is changed by the
Auto-Binder between datagrams, so the snapshot `d.interfaces.GetAll()` is an input of every
iteration. -/
structure Demuxer where
  senders : List (String × Sender)
  sessions : List (String × Bytes)
  handshakeTimeout : Nat
deriving DecidableEq

/-- The tables `NewDemuxer` starts with. -/
def NewDemuxer (handshakeTimeout : Nat) : Demuxer :=
  { senders := [], sessions := [], handshakeTimeout := handshakeTimeout }

/-- What a call `rand.Read(token)` did: the bytes it put at the start of the buffer and whether
it returned an error. -/
structure RandRead where
  written : Bytes
  err : Bool
deriving DecidableEq

/-- The buffer `token := make([]byte, 64)` after `rand.Read(token)`: 64 bytes, those written
followed by the zeros left in place. -/
def makeToken (r : RandRead) : Bytes :=
  (r.written ++ List.replicate 64 (0 : Fin 256)).take 64

/-- Go `Demuxer.GetSession` (demuxer.go lines 90-101). The error of `rand.Read` is only
logged. -/
def GetSession (d : Demuxer) (addr : UDPAddr) (rnd : RandRead) : Bytes × Demuxer :=
  match mapGet addr.text d.sessions with
  | some session => (session, d)
  | none =>
    let token := makeToken rnd
    (token, { d with sessions := mapSet addr.text token d.sessions })

/-- The key `fmt.Sprintf("%s-%s-%s", hex.EncodeToString(session), iface, dial)`. -/
def senderKey (session : Bytes) (iface dial : UDPAddr) : String :=
  EncodeToString session ++ "-" ++ iface.text ++ "-" ++ dial.text

/-- The loop `for _, iface := range d.interfaces.GetAll()` (demuxer.go lines 70-83) over the
snapshot `ifaces`. -/
def forIfaces (dial senderAddr : UDPAddr) (session b : Bytes) :
    Demuxer → List UDPAddr → Demuxer × List Event
  | d, [] => (d, [])
  | d, iface :: rest =>
    let key := senderKey session iface dial
    match mapGet key d.senders with
    | some _ =>
      let r := forIfaces dial senderAddr session b d rest
      (r.1, Event.SenderWrite key b :: r.2)
    | none =>
      let sender : Sender := ⟨session, iface, dial, senderAddr, d.handshakeTimeout⟩
      let r := forIfaces dial senderAddr session b
        { d with senders := mapSet key sender d.senders } rest
      (r.1, Event.NewSender key session iface dial :: Event.SenderWrite key b :: r.2)

/-- One datagram read by the Demuxer together with what the environment supplies while it is
handled: the membership snapshot and the outcome of `rand.Read`, should it be called. -/
structure Input where
  senderAddr : UDPAddr
  b : Bytes
  ifaces : List UDPAddr
  rnd : RandRead
deriving DecidableEq

/-- One iteration of the receive loop of `NewDemuxer` (demuxer.go lines 68-84) for a datagram
`b = msg[:n]` read from `senderAddr`. -/
def handle (dial : UDPAddr) (d : Demuxer) (x : Input) : Demuxer × List Event :=
  let r := GetSession d x.senderAddr x.rnd
  forIfaces dial x.senderAddr r.1 x.b r.2 x.ifaces

/-- The receive loop over the datagrams read, in order, until the read error that ends it. -/
def run (dial : UDPAddr) : Demuxer → List Input → Demuxer × List Event
  | d, [] => (d, [])
  | d, x :: rest =>
    let r := handle dial d x
    let r2 := run dial r.1 rest
    (r2.1, r.2 ++ r2.2)

/-- A sequence of calls `d.GetSession(addr)`, each with the outcome `rand.Read` has if called. -/
def getSessions : Demuxer → List (UDPAddr × RandRead) → Demuxer
  | d, [] => d
  | d, c :: rest => getSessions (GetSession d c.1 c.2).2 rest

/-- The registry maps no two distinct peer addresses to the same token. -/
def TokensUnique (d : Demuxer) : Prop :=
  ∀ a1 a2 : UDPAddr, ∀ t : Bytes,
    mapGet a1.text d.sessions = some t → mapGet a2.text d.sessions = some t → a1 = a2

/-- The tables of the Demuxer after the datagrams `hist`, from the start. -/
def reach (dial : UDPAddr) (handshakeTimeout : Nat) (hist : List Input) : Demuxer :=
  (run dial (NewDemuxer handshakeTimeout) hist).1

/-- The table key of a (token, interface, remote destination) triple. -/
def tripleKey (tr : Bytes × UDPAddr × UDPAddr) : String :=
  senderKey tr.1 tr.2.1 tr.2.2

/-- Every sender of the table is stored under the key of its own token, interface and dial
address, its token has 64 bytes, its dial address is the Demuxer's, and its interface is one of
`seen`; every token of the session map has 64 bytes. -/
def WellKeyed (dial : UDPAddr) (seen : List UDPAddr) (d : Demuxer) : Prop :=
  (∀ k sd, mapGet k d.senders = some sd →
    k = senderKey sd.session sd.iface dial ∧ sd.session.length = 64 ∧ sd.dial = dial ∧
      sd.iface ∈ seen) ∧
  (∀ a t, mapGet a d.sessions = some t → t.length = 64)

/-- The interface addresses of all snapshots of a sequence of inputs. -/
def snapshots (hist : List Input) : List UDPAddr :=
  hist.flatMap (fun x => x.ifaces)

/-- The `Write` calls of a list of events, each as the key of its sender and its payload. -/
def writes : List Event → List (String × Bytes)
  | [] => []
  | Event.SenderWrite key b :: rest => (key, b) :: writes rest
  | _ :: rest => writes rest

/-- The `NewSender` calls of a list of events, as (token, interface, remote destination). -/
def created : List Event → List (Bytes × UDPAddr × UDPAddr)
  | [] => []
  | Event.NewSender _ session iface dial :: rest => (session, iface, dial) :: created rest
  | _ :: rest => created rest

end demuxer

/-! ## package networking -/

namespace networking

/-- A `*net.UDPAddr` in the Auto-Binder: `ptr` is the identity of the heap cell, which is what a
`map[*net.UDPAddr]bool` compares; `IP` and `Port` are its contents. -/
structure UDPAddrPtr where
  ptr : Nat
  IP : List (Fin 256)
  Port : Nat
deriving DecidableEq

/-- A `net.Addr` returned by `Interface.Addrs()`, by dynamic type, as the type switch of
`getAddresses` distinguishes them. -/
inductive Addr where
  | IPNet (ip : List (Fin 256))
  | UDPAddr (v : UDPAddrPtr)
  | Other
deriving DecidableEq

/-- A `net.Interface`, as far as `getAddresses` uses one: the result of its `Addrs()`. -/
structure Interface where
  Addrs : Except String (List Addr)

/-- What the environment answers during one call of `getAddresses`: the result of `source()` and
the outcome of `tryDial` for an address. -/
structure Poll where
  source : Except String (List Interface)
  tryDial : UDPAddrPtr → Bool

/-- The inner loop of `getAddresses` (networking.go lines 27-39) over the addresses of one
interface. `next` is the first unused heap cell: `&net.UDPAddr` takes a new one. -/
def addrsLoop (tryDial : UDPAddrPtr → Bool) : List Addr → Nat → List UDPAddrPtr × Nat
  | [], next => ([], next)
  | Addr.IPNet ip :: rest, next =>
    let addr : UDPAddrPtr := ⟨next, ip, 0⟩
    let r := addrsLoop tryDial rest (next + 1)
    if tryDial addr then (addr :: r.1, r.2) else r
  | Addr.UDPAddr v :: rest, next =>
    let r := addrsLoop tryDial rest next
    if tryDial v then (v :: r.1, r.2) else r
  | Addr.Other :: rest, next => addrsLoop tryDial rest next

/-- The outer loop of `getAddresses` (networking.go lines 21-40); an interface whose `Addrs()`
fails is skipped. -/
def ifacesLoop (tryDial : UDPAddrPtr → Bool) : List Interface → Nat → List UDPAddrPtr × Nat
  | [], next => ([], next)
  | i :: rest, next =>
    match i.Addrs with
    | Except.error _ => ifacesLoop tryDial rest next
    | Except.ok ifaceAddrs =>
      let r := addrsLoop tryDial ifaceAddrs next
      let r2 := ifacesLoop tryDial rest r.2
      (r.1 ++ r2.1, r2.2)

/-- Go `getAddresses` (networking.go lines 15-42), with the heap counter threaded through. -/
def getAddresses (p : Poll) (next : Nat) : Except String (List UDPAddrPtr) × Nat :=
  match p.source with
  | Except.error err => (Except.error err, next)
  | Except.ok ifaces =>
    let r := ifacesLoop p.tryDial ifaces next
    (Except.ok r.1, r.2)

/-- Go `makeSet` (networking.go lines 44-50): the map with `m[a] = true` for every element. -/
def makeSet (s : List UDPAddrPtr) : List (UDPAddrPtr × Bool) :=
  s.foldl (fun m a => mapSet a true m) []

/-- The index expression `b[x]` on a `map[*net.UDPAddr]bool`: `false` for a missing key. -/
def member (b : List (UDPAddrPtr × Bool)) (x : UDPAddrPtr) : Bool :=
  (mapGet x b).getD false

/-- Go `diff` (networking.go lines 52-62): the keys of `a` for which `b[x]` is false. -/
def diff (a b : List (UDPAddrPtr × Bool)) : List UDPAddrPtr :=
  (a.filter (fun e => !(member b e.1))).map Prod.fst

/-- The callbacks `Bind` invokes. -/
inductive Event where
  | add (addr : UDPAddrPtr)
  | sub (addr : UDPAddrPtr)
deriving DecidableEq

/-- The variables of `Bind` that the polling goroutine keeps, and the heap counter. -/
structure Binder where
  currAddrs : List UDPAddrPtr
  currAddrSet : List (UDPAddrPtr × Bool)
  next : Nat
deriving DecidableEq

/-- The part of Go `AutoBinder.Bind` before the goroutine starts (networking.go lines 80-90). -/
def Bind (p : Poll) (next : Nat) : Binder × List Event :=
  let r := getAddresses p next
  let currAddrs : List UDPAddrPtr :=
    match r.1 with
    | Except.error _ => []
    | Except.ok addrs => addrs
  let currAddrSet := makeSet currAddrs
  ({ currAddrs := currAddrs, currAddrSet := currAddrSet, next := r.2 },
    currAddrSet.map (fun e => Event.add e.1))

/-- The case `<-time.After(b.pollPeriod)` of the polling goroutine (networking.go lines 98-112):
one poll cycle. -/
def poll (st : Binder) (p : Poll) : Binder × List Event :=
  let r := getAddresses p st.next
  match r.1 with
  | Except.error _ =>
    -- logged; `break` leaves the select statement, the variables are as they were
    ({ st with next := r.2 }, [])
  | Except.ok nextAddrs =>
    let nextAddrSet := makeSet nextAddrs
    ({ currAddrs := nextAddrs, currAddrSet := nextAddrSet, next := r.2 },
      (diff st.currAddrSet nextAddrSet).map Event.sub ++
      (diff nextAddrSet st.currAddrSet).map Event.add)

/-- What the `select` of the polling goroutine receives in one round. -/
inductive Tick where
  | quit
  | after (p : Poll)

/-- The polling goroutine (networking.go lines 93-115): `quit` returns, a timer tick runs one
poll cycle and the `for` loop goes round again. -/
def loop : Binder → List Tick → Binder × List Event
  | st, [] => (st, [])
  | st, Tick.quit :: _ => (st, [])
  | st, Tick.after p :: rest =>
    let r := poll st p
    let r2 := loop r.1 rest
    (r2.1, r.2 ++ r2.2)

/-- The IP addresses a list of `*net.UDPAddr` points to. -/
def ips (s : List UDPAddrPtr) : List (List (Fin 256)) := s.map (fun a => a.IP)

end networking

/-! ## Go maps: lemmas -/

theorem mapGet_mapSet_same {κ ν : Type} [DecidableEq κ] (k : κ) (v : ν) (m : List (κ × ν)) :
    mapGet k (mapSet k v m) = some v := by
  induction m with
  | nil => simp [mapSet, mapGet]
  | cons e rest ih =>
    by_cases h : e.1 = k
    · simp [mapSet, mapGet, h]
    · simp [mapSet, mapGet, h, ih]

theorem mapGet_mapSet_other {κ ν : Type} [DecidableEq κ] (k k2 : κ) (v : ν) (m : List (κ × ν))
    (h : k ≠ k2) : mapGet k2 (mapSet k v m) = mapGet k2 m := by
  induction m with
  | nil => simp [mapSet, mapGet, h]
  | cons e rest ih =>
    by_cases h1 : e.1 = k
    · have h2 : e.1 ≠ k2 := by rw [h1]; exact h
      simp [mapSet, mapGet, h1, h, h2]
    · by_cases h2 : e.1 = k2
      · have h3 : ¬ k2 = k := fun hk => h hk.symm
        simp [mapSet, mapGet, h1, h2, h3]
      · simp [mapSet, mapGet, h1, h2, ih]

theorem mapGet_eq_none_iff {κ ν : Type} [DecidableEq κ] (k : κ) (m : List (κ × ν)) :
    mapGet k m = none ↔ k ∉ m.map Prod.fst := by
  induction m with
  | nil => simp [mapGet]
  | cons e rest ih =>
    by_cases h : e.1 = k
    · simp [mapGet, h]
    · have h2 : ¬ k = e.1 := fun hk => h hk.symm
      simp [mapGet, h, h2, ih]

theorem mapGet_mem {κ ν : Type} [DecidableEq κ] (k : κ) (v : ν) (m : List (κ × ν))
    (h : mapGet k m = some v) : (k, v) ∈ m := by
  induction m with
  | nil => simp [mapGet] at h
  | cons e rest ih =>
    by_cases h1 : e.1 = k
    · simp [mapGet, h1] at h
      have : e = (k, v) := by
        cases e
        simp_all
      simp [this]
    · simp [mapGet, h1] at h
      simp [ih h]

theorem mapSet_keys_nodup {κ ν : Type} [DecidableEq κ] (k : κ) (v : ν) (m : List (κ × ν))
    (h : (m.map Prod.fst).Nodup) : ((mapSet k v m).map Prod.fst).Nodup := by
  induction m with
  | nil => simp [mapSet]
  | cons e rest ih =>
    simp only [List.map_cons, List.nodup_cons] at h
    by_cases h1 : e.1 = k
    · simp only [mapSet, h1, if_true, List.map_cons, List.nodup_cons]
      rw [h1] at h
      exact h
    · simp only [mapSet, h1, if_false, List.map_cons, List.nodup_cons]
      refine ⟨?_, ih h.2⟩
      intro hmem
      have hk : mapGet e.1 (mapSet k v rest) = mapGet e.1 rest :=
        mapGet_mapSet_other k e.1 v rest (fun hk => h1 hk.symm)
      have h3 : mapGet e.1 rest = none := (mapGet_eq_none_iff e.1 rest).2 h.1
      rw [h3] at hk
      exact ((mapGet_eq_none_iff e.1 _).1 hk) hmem

theorem mapGet_of_mem_nodup {κ ν : Type} [DecidableEq κ] (k : κ) (v : ν) (m : List (κ × ν))
    (hn : (m.map Prod.fst).Nodup) (h : (k, v) ∈ m) : mapGet k m = some v := by
  induction m with
  | nil => simp at h
  | cons e rest ih =>
    simp only [List.map_cons, List.nodup_cons] at hn
    rcases List.mem_cons.1 h with h1 | h1
    · subst h1
      simp [mapGet]
    · have hne : e.1 ≠ k := by
        intro he
        apply hn.1
        rw [he]
        exact List.mem_map_of_mem Prod.fst h1
      simp [mapGet, hne, ih hn.2 h1]

/-! ## encoding/hex: lemmas -/

theorem hexDigit_injective : ∀ a b : Fin 16, hexDigit a.val = hexDigit b.val → a = b := by
  decide

theorem hexChars_length (b : Bytes) : (hexChars b).length = 2 * b.length := by
  induction b with
  | nil => rfl
  | cons x xs ih => simp [hexChars, ih]; omega

theorem hexChars_injective (b1 b2 : Bytes) (h : hexChars b1 = hexChars b2) : b1 = b2 := by
  induction b1 generalizing b2 with
  | nil =>
    cases b2 with
    | nil => rfl
    | cons y ys => simp [hexChars] at h
  | cons x xs ih =>
    cases b2 with
    | nil => simp [hexChars] at h
    | cons y ys =>
      simp only [hexChars, List.cons.injEq] at h
      obtain ⟨h1, h2, h3⟩ := h
      have e1 := hexDigit_injective ⟨x.val / 16, by omega⟩ ⟨y.val / 16, by omega⟩ h1
      have e2 := hexDigit_injective ⟨x.val % 16, by omega⟩ ⟨y.val % 16, by omega⟩ h2
      have e1v : x.val / 16 = y.val / 16 := congrArg Fin.val e1
      have e2v : x.val % 16 = y.val % 16 := congrArg Fin.val e2
      have hxy : x = y := by
        apply Fin.ext
        omega
      rw [hxy, ih ys h3]

theorem EncodeToString_injective (b1 b2 : Bytes) (h : EncodeToString b1 = EncodeToString b2) :
    b1 = b2 := by
  apply hexChars_injective
  exact congrArg String.data h

/-! ## package muxer: the receive loop -/

namespace muxer

theorem handle_of_none {δ : Type} (Receive : δ → String → Bytes → Bool × δ) (dial : UDPAddr)
    (m : Muxer δ) (p : UDPAddr) (b : Bytes) (h : m.sessions.GetSession p = none) :
    handle Receive dial m p b =
      ({ m with sessions := m.sessions.Set p b,
                deduplicator := (Receive m.deduplicator (EncodeToString b) b).2 },
        [Event.Set p b, Event.WriteToUDP b p,
         Event.Receive (EncodeToString b) b (Receive m.deduplicator (EncodeToString b) b).1]) := by
  simp [handle, h]

theorem handle_of_token {δ : Type} (Receive : δ → String → Bytes → Bool × δ) (dial : UDPAddr)
    (m : Muxer δ) (p : UDPAddr) (b : Bytes) (h : m.sessions.GetSession p = some b) :
    handle Receive dial m p b = (m, [Event.WriteToUDP b p]) := by
  simp [handle, h]

theorem handle_of_payload_old {δ : Type} (Receive : δ → String → Bytes → Bool × δ)
    (dial : UDPAddr) (m : Muxer δ) (p : UDPAddr) (t b : Bytes) (s : Sink)
    (h : m.sessions.GetSession p = some t) (hb : b ≠ t)
    (hs : mapGet (EncodeToString t) m.sinks = some s) :
    handle Receive dial m p b =
      ({ m with deduplicator := (Receive m.deduplicator (EncodeToString t) b).2 },
        [Event.Receive (EncodeToString t) b (Receive m.deduplicator (EncodeToString t) b).1,
         Event.SinkWrite (EncodeToString t) b]) := by
  simp [handle, h, hb, hs]

theorem handle_of_payload_new {δ : Type} (Receive : δ → String → Bytes → Bool × δ)
    (dial : UDPAddr) (m : Muxer δ) (p : UDPAddr) (t b : Bytes)
    (h : m.sessions.GetSession p = some t) (hb : b ≠ t)
    (hs : mapGet (EncodeToString t) m.sinks = none) :
    handle Receive dial m p b =
      ({ m with deduplicator := (Receive m.deduplicator (EncodeToString t) b).2,
                sinks := mapSet (EncodeToString t) ⟨dial, t⟩ m.sinks },
        [Event.Receive (EncodeToString t) b (Receive m.deduplicator (EncodeToString t) b).1,
         Event.NewSink (EncodeToString t) t, Event.SinkWrite (EncodeToString t) b]) := by
  simp [handle, h, hb, hs]

theorem GetSession_Set (r : AddrToSessionMap) (a p : UDPAddr) (t : Bytes) :
    (r.Set a t).GetSession p = if a = p then some t else r.GetSession p := by
  by_cases h : a = p
  · subst h
    simp [AddrToSessionMap.Set, AddrToSessionMap.GetSession, mapGet_mapSet_same]
  · simp [AddrToSessionMap.Set, AddrToSessionMap.GetSession, h, mapGet_mapSet_other a p t _ h]

/-- The registry lookup after one iteration: a registered token stays, an unregistered sender is
registered with its datagram. -/
theorem handle_GetSession {δ : Type} (Receive : δ → String → Bytes → Bool × δ) (dial : UDPAddr)
    (m : Muxer δ) (a p : UDPAddr) (b : Bytes) :
    (handle Receive dial m a b).1.sessions.GetSession p =
      match m.sessions.GetSession p with
      | some t => some t
      | none => if a = p then some b else none := by
  cases ha : m.sessions.GetSession a with
  | none =>
    rw [handle_of_none Receive dial m a b ha]
    simp only [GetSession_Set]
    by_cases hap : a = p
    · subst hap
      simp [ha]
    · simp only [hap, if_false]
      cases m.sessions.GetSession p <;> rfl
  | some s =>
    have hs : (handle Receive dial m a b).1.sessions = m.sessions := by
      unfold handle
      simp only [ha]
      split
      · rfl
      · split <;> rfl
    rw [hs]
    cases hp : m.sessions.GetSession p with
    | some t => rfl
    | none =>
      have hap : a ≠ p := by
        intro e
        rw [e, hp] at ha
        cases ha
      simp [hap]

theorem run_append {δ : Type} (Receive : δ → String → Bytes → Bool × δ) (dial : UDPAddr)
    (m : Muxer δ) (pre post : List (UDPAddr × Bytes)) :
    run Receive dial m (pre ++ post) =
      ((run Receive dial (run Receive dial m pre).1 post).1,
        (run Receive dial m pre).2 ++ (run Receive dial (run Receive dial m pre).1 post).2) := by
  induction pre generalizing m with
  | nil => simp [run]
  | cons x rest ih => simp [run, ih, List.append_assoc]

theorem run_GetSession {δ : Type} (Receive : δ → String → Bytes → Bool × δ) (dial : UDPAddr)
    (m : Muxer δ) (inputs : List (UDPAddr × Bytes)) (p : UDPAddr) :
    (run Receive dial m inputs).1.sessions.GetSession p =
      match m.sessions.GetSession p with
      | some t => some t
      | none => firstDatagram inputs p := by
  induction inputs generalizing m with
  | nil =>
    simp only [run, firstDatagram, List.find?_nil, Option.map_none']
    cases m.sessions.GetSession p <;> rfl
  | cons x rest ih =>
    simp only [run]
    rw [ih, handle_GetSession]
    cases hp : m.sessions.GetSession p with
    | some t => rfl
    | none =>
      by_cases hx : x.1 = p
      · simp [firstDatagram, hx]
      · simp [firstDatagram, hx]

/-- `Set` is called for a peer only while it has no token, and then it has one. -/
theorem run_Set_count {δ : Type} (Receive : δ → String → Bytes → Bool × δ) (dial : UDPAddr)
    (m : Muxer δ) (inputs : List (UDPAddr × Bytes)) (p : UDPAddr) :
    ((run Receive dial m inputs).2.filter (Event.isSetFor p)).length ≤
      match m.sessions.GetSession p with
      | some _ => 0
      | none => 1 := by
  induction inputs generalizing m with
  | nil =>
    simp only [run, List.filter_nil, List.length_nil]
    cases m.sessions.GetSession p <;> simp
  | cons x rest ih =>
    simp only [run, List.filter_append, List.length_append]
    have ih2 := ih (handle Receive dial m x.1 x.2).1
    rw [handle_GetSession] at ih2
    cases hx : m.sessions.GetSession x.1 with
    | none =>
      rw [handle_of_none Receive dial m x.1 x.2 hx] at *
      by_cases hxp : x.1 = p
      · have hp : m.sessions.GetSession p = none := by rw [← hxp]; exact hx
        have h1 : ([Event.Set x.1 x.2, Event.WriteToUDP x.2 x.1,
            Event.Receive (EncodeToString x.2) x.2
              (Receive m.deduplicator (EncodeToString x.2) x.2).1].filter
              (Event.isSetFor p)).length = 1 := by
          simp [List.filter, Event.isSetFor, hxp]
        rw [h1]
        simp only [hp, hxp, if_true] at ih2 ⊢
        omega
      · have h0 : ([Event.Set x.1 x.2, Event.WriteToUDP x.2 x.1,
            Event.Receive (EncodeToString x.2) x.2
              (Receive m.deduplicator (EncodeToString x.2) x.2).1].filter
              (Event.isSetFor p)).length = 0 := by
          simp [List.filter, Event.isSetFor, hxp]
        rw [h0]
        simp only [hxp, if_false] at ih2
        cases hp : m.sessions.GetSession p with
        | some t => simp only [hp] at ih2 ⊢; omega
        | none => simp only [hp] at ih2 ⊢; omega
    | some s =>
      have h0 : ((handle Receive dial m x.1 x.2).2.filter (Event.isSetFor p)).length = 0 := by
        unfold handle
        simp only [hx]
        split
        · simp [List.filter, Event.isSetFor]
        · split <;> simp [List.filter, Event.isSetFor]
      rw [h0]
      cases hp : m.sessions.GetSession p with
      | some t => simp only [hp] at ih2 ⊢; omega
      | none =>
        have hxp : x.1 ≠ p := by
          intro e
          rw [e, hp] at hx
          cases hx
        simp only [hp, hxp, if_false] at ih2 ⊢
        omega

/-- C2. Muxer first-datagram step: for a peer with no registered token and any datagram `b`
(the empty one included) the iteration registers `b` as the peer's token, makes exactly the calls
`Set(p, b)`, `WriteToUDP(b, p)` and `Receive(hex(b), b)`, leaves the sink table as it was, and
none of its calls is a `Write` on a sink or a `NewSink`. -/
theorem muxer_first_datagram {δ : Type} (Receive : δ → String → Bytes → Bool × δ)
    (dial : UDPAddr) (m : Muxer δ) (p : UDPAddr) (b : Bytes)
    (h : m.sessions.GetSession p = none) :
    (handle Receive dial m p b).1.sessions = m.sessions.Set p b ∧
    (handle Receive dial m p b).1.sessions.GetSession p = some b ∧
    (handle Receive dial m p b).2 =
      [Event.Set p b, Event.WriteToUDP b p,
       Event.Receive (EncodeToString b) b (Receive m.deduplicator (EncodeToString b) b).1] ∧
    (handle Receive dial m p b).1.deduplicator =
      (Receive m.deduplicator (EncodeToString b) b).2 ∧
    (handle Receive dial m p b).1.sinks = m.sinks ∧
    (∀ e ∈ (handle Receive dial m p b).2, e.isSinkWrite = false ∧ e.isNewSink = false) := by
  rw [handle_of_none Receive dial m p b h]
  refine ⟨rfl, ?_, rfl, rfl, rfl, ?_⟩
  · simp [GetSession_Set]
  · intro e he
    simp only [List.mem_cons, List.mem_singleton, List.not_mem_nil, or_false] at he
    rcases he with he | he | he <;> subst he <;> exact ⟨rfl, rfl⟩

/-- C2 at a concrete input: the empty datagram from a peer the new Muxer has never seen. -/
theorem muxer_first_datagram_witness :
    (NewMuxer (NewPacketDeduplicator 8)).sessions.GetSession ⟨"192.0.2.1:4000"⟩ = none ∧
    (handle PacketDeduplicator.Receive ⟨"198.51.100.9:9000"⟩ (NewMuxer (NewPacketDeduplicator 8))
        ⟨"192.0.2.1:4000"⟩ []).2 =
      [Event.Set ⟨"192.0.2.1:4000"⟩ [], Event.WriteToUDP [] ⟨"192.0.2.1:4000"⟩,
       Event.Receive "" [] true] :=
  ⟨rfl, (muxer_first_datagram PacketDeduplicator.Receive ⟨"198.51.100.9:9000"⟩
    (NewMuxer (NewPacketDeduplicator 8)) ⟨"192.0.2.1:4000"⟩ [] rfl).2.2.1⟩

/-- C3. Handshake convergence on the Muxer, for every finite sequence of inputs from the start:
the token registered for a peer is that peer's first datagram; a token registered after a prefix
of the inputs is still the peer's token at the end; `Set` is called at most once per peer; a
datagram equal to the sender's registered token is only echoed and leaves registry, sinks and
deduplicator as they were; and no step whose datagram equals the sender's token, the step that
registers it included, calls `Write` on a sink. -/
theorem muxer_handshake_convergence {δ : Type} (Receive : δ → String → Bytes → Bool × δ)
    (dial : UDPAddr) (dedup : δ) (inputs : List (UDPAddr × Bytes)) :
    (∀ p, (run Receive dial (NewMuxer dedup) inputs).1.sessions.GetSession p =
        firstDatagram inputs p) ∧
    (∀ pre post p t, inputs = pre ++ post →
      (run Receive dial (NewMuxer dedup) pre).1.sessions.GetSession p = some t →
      (run Receive dial (NewMuxer dedup) inputs).1.sessions.GetSession p = some t) ∧
    (∀ p, ((run Receive dial (NewMuxer dedup) inputs).2.filter (Event.isSetFor p)).length ≤ 1) ∧
    (∀ pre post p b, inputs = pre ++ (p, b) :: post →
      (run Receive dial (NewMuxer dedup) pre).1.sessions.GetSession p = some b →
      handle Receive dial (run Receive dial (NewMuxer dedup) pre).1 p b =
        ((run Receive dial (NewMuxer dedup) pre).1, [Event.WriteToUDP b p])) ∧
    (∀ pre post p b, inputs = pre ++ (p, b) :: post →
      (handle Receive dial (run Receive dial (NewMuxer dedup) pre).1 p b).1.sessions.GetSession p
        = some b →
      ∀ e ∈ (handle Receive dial (run Receive dial (NewMuxer dedup) pre).1 p b).2,
        e.isSinkWrite = false) := by
  refine ⟨?_, ?_, ?_, ?_, ?_⟩
  · intro p
    rw [run_GetSession]
    rfl
  · intro pre post p t hin hpre
    rw [hin, run_append, run_GetSession, hpre]
  · intro p
    have h := run_Set_count Receive dial (NewMuxer dedup) inputs p
    have h0 : (NewMuxer dedup).sessions.GetSession p = none := rfl
    simpa [h0] using h
  · intro pre post p b _ hp
    exact handle_of_token Receive dial _ p b hp
  · intro pre post p b _ hp e he
    cases hq : (run Receive dial (NewMuxer dedup) pre).1.sessions.GetSession p with
    | none =>
      rw [handle_of_none Receive dial _ p b hq] at he
      simp only [List.mem_cons, List.mem_singleton, List.not_mem_nil, or_false] at he
      rcases he with he | he | he <;> subst he <;> rfl
    | some t =>
      rw [handle_GetSession, hq] at hp
      have htb : t = b := Option.some.inj hp
      subst htb
      rw [handle_of_token Receive dial _ p t hq] at he
      simp only [List.mem_singleton] at he
      subst he
      rfl

/-- C3 at a concrete input: a token sent twice by one peer, then a payload. -/
theorem muxer_handshake_convergence_witness :
    (run PacketDeduplicator.Receive ⟨"198.51.100.9:9000"⟩ (NewMuxer (NewPacketDeduplicator 8))
        [(⟨"192.0.2.1:4000"⟩, [170, 1]), (⟨"192.0.2.1:4000"⟩, [170, 1]),
         (⟨"192.0.2.1:4000"⟩, [7])]).1.sessions.GetSession ⟨"192.0.2.1:4000"⟩ =
      some [170, 1] :=
  (muxer_handshake_convergence PacketDeduplicator.Receive ⟨"198.51.100.9:9000"⟩
    (NewPacketDeduplicator 8)
    [(⟨"192.0.2.1:4000"⟩, [170, 1]), (⟨"192.0.2.1:4000"⟩, [170, 1]),
     (⟨"192.0.2.1:4000"⟩, [7])]).1 ⟨"192.0.2.1:4000"⟩

/-- A payload datagram is written to the sink of the sender's session whatever `Receive`
answers. -/
theorem handle_payload_written {δ : Type} (Receive : δ → String → Bytes → Bool × δ)
    (dial : UDPAddr) (m : Muxer δ) (p : UDPAddr) (t b : Bytes)
    (ht : m.sessions.GetSession p = some t) (hb : b ≠ t) :
    Event.SinkWrite (EncodeToString t) b ∈ (handle Receive dial m p b).2 := by
  unfold handle
  simp only [ht, hb, if_false]
  split <;> simp

/-- C1, the code at the failing input. Two peers (the two paths of one session) register the
token `aa01`; the payload `07` then arrives once from each. With the deduplicator of the spec the
second `Receive` answers `false` (a duplicate) and the payload is written to the sink a second
time all the same; and whatever deduplicator is used, these inputs end in two calls
`Write(07)` on the sink. -/
theorem muxer_duplicate_payload_forwarded :
    (run PacketDeduplicator.Receive ⟨"198.51.100.9:9000"⟩ (NewMuxer (NewPacketDeduplicator 8))
        [(⟨"192.0.2.1:4000"⟩, [170, 1]), (⟨"192.0.2.2:4000"⟩, [170, 1]),
         (⟨"192.0.2.1:4000"⟩, [7]), (⟨"192.0.2.2:4000"⟩, [7])]).2 =
      [Event.Set ⟨"192.0.2.1:4000"⟩ [170, 1], Event.WriteToUDP [170, 1] ⟨"192.0.2.1:4000"⟩,
       Event.Receive "aa01" [170, 1] true,
       Event.Set ⟨"192.0.2.2:4000"⟩ [170, 1], Event.WriteToUDP [170, 1] ⟨"192.0.2.2:4000"⟩,
       Event.Receive "aa01" [170, 1] false,
       Event.Receive "aa01" [7] true, Event.NewSink "aa01" [170, 1], Event.SinkWrite "aa01" [7],
       Event.Receive "aa01" [7] false, Event.SinkWrite "aa01" [7]] ∧
    (∀ (δ : Type) (Receive : δ → String → Bytes → Bool × δ) (dedup : δ),
      (run Receive ⟨"198.51.100.9:9000"⟩ (NewMuxer dedup)
        [(⟨"192.0.2.1:4000"⟩, [170, 1]), (⟨"192.0.2.2:4000"⟩, [170, 1]),
         (⟨"192.0.2.1:4000"⟩, [7]), (⟨"192.0.2.2:4000"⟩, [7])]).2.filter Event.isSinkWrite =
        [Event.SinkWrite "aa01" [7], Event.SinkWrite "aa01" [7]]) := by
  refine ⟨by decide, ?_⟩
  intro δ Receive dedup
  have e : EncodeToString [170, 1] = "aa01" := by decide
  simp [run, handle, NewMuxer, NewAddrToSessionMap, AddrToSessionMap.GetSession,
    AddrToSessionMap.Set, mapGet, mapSet, e, Event.isSinkWrite, List.filter]

/-! ### Return broadcast -/

theorem handle_sinks_persist {δ : Type} (Receive : δ → String → Bytes → Bool × δ)
    (dial : UDPAddr) (m : Muxer δ) (a : UDPAddr) (b : Bytes) (k : String) (s : Sink)
    (h : mapGet k m.sinks = some s) : mapGet k (handle Receive dial m a b).1.sinks = some s := by
  cases ha : m.sessions.GetSession a with
  | none => rw [handle_of_none Receive dial m a b ha]; exact h
  | some t =>
    by_cases hb : b = t
    · subst hb
      rw [handle_of_token Receive dial m a b ha]; exact h
    · cases hs : mapGet (EncodeToString t) m.sinks with
      | some s2 => rw [handle_of_payload_old Receive dial m a t b s2 ha hb hs]; exact h
      | none =>
        rw [handle_of_payload_new Receive dial m a t b ha hb hs]
        have hk : EncodeToString t ≠ k := by
          intro e
          rw [e, h] at hs
          cases hs
        simp only
        rw [mapGet_mapSet_other _ _ _ _ hk]
        exact h

theorem run_sinks_persist {δ : Type} (Receive : δ → String → Bytes → Bool × δ)
    (dial : UDPAddr) (m : Muxer δ) (inputs : List (UDPAddr × Bytes)) (k : String) (s : Sink)
    (h : mapGet k m.sinks = some s) : mapGet k (run Receive dial m inputs).1.sinks = some s := by
  induction inputs generalizing m with
  | nil => exact h
  | cons x rest ih => exact ih _ (handle_sinks_persist Receive dial m x.1 x.2 k s h)

theorem handle_SinksKeyed {δ : Type} (Receive : δ → String → Bytes → Bool × δ)
    (dial : UDPAddr) (m : Muxer δ) (a : UDPAddr) (b : Bytes) (h : SinksKeyed m) :
    SinksKeyed (handle Receive dial m a b).1 := by
  cases ha : m.sessions.GetSession a with
  | none => rw [handle_of_none Receive dial m a b ha]; exact h
  | some t =>
    by_cases hb : b = t
    · subst hb
      rw [handle_of_token Receive dial m a b ha]; exact h
    · cases hs : mapGet (EncodeToString t) m.sinks with
      | some s2 => rw [handle_of_payload_old Receive dial m a t b s2 ha hb hs]; exact h
      | none =>
        rw [handle_of_payload_new Receive dial m a t b ha hb hs]
        intro k s hk
        simp only at hk
        by_cases e : EncodeToString t = k
        · subst e
          rw [mapGet_mapSet_same] at hk
          cases hk
          rfl
        · rw [mapGet_mapSet_other _ _ _ _ e] at hk
          exact h k s hk

theorem run_SinksKeyed {δ : Type} (Receive : δ → String → Bytes → Bool × δ)
    (dial : UDPAddr) (m : Muxer δ) (inputs : List (UDPAddr × Bytes)) (h : SinksKeyed m) :
    SinksKeyed (run Receive dial m inputs).1 := by
  induction inputs generalizing m with
  | nil => exact h
  | cons x rest ih => exact ih _ (handle_SinksKeyed Receive dial m x.1 x.2 h)

theorem handle_keys_nodup {δ : Type} (Receive : δ → String → Bytes → Bool × δ)
    (dial : UDPAddr) (m : Muxer δ) (a : UDPAddr) (b : Bytes)
    (h : (m.sessions.entries.map Prod.fst).Nodup) :
    ((handle Receive dial m a b).1.sessions.entries.map Prod.fst).Nodup := by
  cases ha : m.sessions.GetSession a with
  | none => rw [handle_of_none Receive dial m a b ha]; exact mapSet_keys_nodup a b _ h
  | some t =>
    by_cases hb : b = t
    · subst hb
      rw [handle_of_token Receive dial m a b ha]; exact h
    · cases hs : mapGet (EncodeToString t) m.sinks with
      | some s2 => rw [handle_of_payload_old Receive dial m a t b s2 ha hb hs]; exact h
      | none => rw [handle_of_payload_new Receive dial m a t b ha hb hs]; exact h

theorem run_keys_nodup {δ : Type} (Receive : δ → String → Bytes → Bool × δ)
    (dial : UDPAddr) (m : Muxer δ) (inputs : List (UDPAddr × Bytes))
    (h : (m.sessions.entries.map Prod.fst).Nodup) :
    ((run Receive dial m inputs).1.sessions.entries.map Prod.fst).Nodup := by
  induction inputs generalizing m with
  | nil => exact h
  | cons x rest ih => exact ih _ (handle_keys_nodup Receive dial m x.1 x.2 h)

theorem GetUDPAddrs_nodup (r : AddrToSessionMap) (t : Bytes)
    (h : (r.entries.map Prod.fst).Nodup) : (r.GetUDPAddrs t).Nodup :=
  List.Nodup.sublist (List.Sublist.map Prod.fst (List.filter_sublist r.entries)) h

theorem mem_GetUDPAddrs (r : AddrToSessionMap) (t : Bytes) (a : UDPAddr)
    (h : (r.entries.map Prod.fst).Nodup) : a ∈ r.GetUDPAddrs t ↔ r.GetSession a = some t := by
  constructor
  · intro ha
    simp only [AddrToSessionMap.GetUDPAddrs, List.mem_map, List.mem_filter,
      decide_eq_true_eq] at ha
    obtain ⟨e, ⟨he, het⟩, hea⟩ := ha
    apply mapGet_of_mem_nodup a t r.entries h
    rw [← hea, ← het]
    exact he
  · intro ha
    have hm := mapGet_mem a t r.entries ha
    simp only [AddrToSessionMap.GetUDPAddrs, List.mem_map, List.mem_filter, decide_eq_true_eq]
    exact ⟨(a, t), ⟨hm, rfl⟩, rfl⟩

/-- C4. Return broadcast. Let the Muxer have created, during `inputs`, the sink stored for the
token `t`. Then the token its callback captured is `t`; the same sink is still the one stored for
`t` after any later datagrams; and the callback, run on a return datagram `msg` against the
registry as it is at that later time, makes exactly the calls `WriteToUDP(msg, a)` for the
addresses `a` of `GetUDPAddrs(t)`: one call for each such address, none for another address, and
an address is among them exactly when the registry maps it to `t`. -/
theorem muxer_return_broadcast {δ : Type} (Receive : δ → String → Bytes → Bool × δ)
    (dial : UDPAddr) (dedup : δ) (inputs later : List (UDPAddr × Bytes)) (t : Bytes)
    (sink : Sink) (msg : Bytes)
    (h : mapGet (EncodeToString t) (run Receive dial (NewMuxer dedup) inputs).1.sinks
      = some sink) :
    sink.session = t ∧
    mapGet (EncodeToString t) (run Receive dial (NewMuxer dedup) (inputs ++ later)).1.sinks
      = some sink ∧
    Sink.callback (run Receive dial (NewMuxer dedup) (inputs ++ later)).1 sink msg =
      ((run Receive dial (NewMuxer dedup) (inputs ++ later)).1.sessions.GetUDPAddrs t).map
        (fun a => Event.WriteToUDP msg a) ∧
    (∀ a, (Sink.callback (run Receive dial (NewMuxer dedup) (inputs ++ later)).1 sink msg).count
        (Event.WriteToUDP msg a) =
      if a ∈ (run Receive dial (NewMuxer dedup) (inputs ++ later)).1.sessions.GetUDPAddrs t
      then 1 else 0) ∧
    (∀ a, a ∈ (run Receive dial (NewMuxer dedup) (inputs ++ later)).1.sessions.GetUDPAddrs t ↔
      (run Receive dial (NewMuxer dedup) (inputs ++ later)).1.sessions.GetSession a = some t) ∧
    (∀ e ∈ Sink.callback (run Receive dial (NewMuxer dedup) (inputs ++ later)).1 sink msg,
      ∃ a ∈ (run Receive dial (NewMuxer dedup) (inputs ++ later)).1.sessions.GetUDPAddrs t,
        e = Event.WriteToUDP msg a) := by
  have hkeyed : SinksKeyed (run Receive dial (NewMuxer dedup) inputs).1 :=
    run_SinksKeyed Receive dial _ inputs (by intro k s hk; simp [NewMuxer, mapGet] at hk)
  have hsess : sink.session = t :=
    (EncodeToString_injective _ _ (hkeyed _ _ h)).symm
  have hnd : ((run Receive dial (NewMuxer dedup) (inputs ++ later)).1.sessions.entries.map
      Prod.fst).Nodup :=
    run_keys_nodup Receive dial _ _ (by simp [NewMuxer, NewAddrToSessionMap])
  have hcb : Sink.callback (run Receive dial (NewMuxer dedup) (inputs ++ later)).1 sink msg =
      ((run Receive dial (NewMuxer dedup) (inputs ++ later)).1.sessions.GetUDPAddrs t).map
        (fun a => Event.WriteToUDP msg a) := by
    simp [Sink.callback, hsess]
  have hinj : Function.Injective (fun a : UDPAddr => Event.WriteToUDP msg a) := by
    intro a1 a2 e
    simpa using e
  refine ⟨hsess, ?_, hcb, ?_, ?_, ?_⟩
  · rw [run_append]
    exact run_sinks_persist Receive dial _ later _ _ h
  · intro a
    rw [hcb, List.count_map_of_injective _ _ hinj]
    by_cases ha : a ∈ (run Receive dial (NewMuxer dedup) (inputs ++ later)).1.sessions.GetUDPAddrs t
    · simp only [ha, if_true]
      exact List.count_eq_one_of_mem (GetUDPAddrs_nodup _ t hnd) ha
    · simp only [ha, if_false]
      exact List.count_eq_zero_of_not_mem ha
  · intro a
    exact mem_GetUDPAddrs _ t a hnd
  · intro e he
    rw [hcb] at he
    obtain ⟨a, ha, hea⟩ := List.mem_map.1 he
    exact ⟨a, ha, hea.symm⟩

/-- C4 at a concrete input: two paths of the session `aa01`, a payload that creates the sink, and
a third path that joins later; the return datagram `09` goes to the three of them. -/
theorem muxer_return_broadcast_witness :
    mapGet (EncodeToString [170, 1])
        (run PacketDeduplicator.Receive ⟨"198.51.100.9:9000"⟩
          (NewMuxer (NewPacketDeduplicator 8))
          [(⟨"192.0.2.1:4000"⟩, [170, 1]), (⟨"192.0.2.2:4000"⟩, [170, 1]),
           (⟨"192.0.2.1:4000"⟩, [7])]).1.sinks
      = some ⟨⟨"198.51.100.9:9000"⟩, [170, 1]⟩ ∧
    Sink.callback
        (run PacketDeduplicator.Receive ⟨"198.51.100.9:9000"⟩
          (NewMuxer (NewPacketDeduplicator 8))
          ([(⟨"192.0.2.1:4000"⟩, [170, 1]), (⟨"192.0.2.2:4000"⟩, [170, 1]),
            (⟨"192.0.2.1:4000"⟩, [7])] ++ [(⟨"192.0.2.3:4000"⟩, [170, 1])])).1
        ⟨⟨"198.51.100.9:9000"⟩, [170, 1]⟩ [9] =
      [Event.WriteToUDP [9] ⟨"192.0.2.1:4000"⟩, Event.WriteToUDP [9] ⟨"192.0.2.2:4000"⟩,
       Event.WriteToUDP [9] ⟨"192.0.2.3:4000"⟩] :=
  ⟨by decide,
    (muxer_return_broadcast PacketDeduplicator.Receive ⟨"198.51.100.9:9000"⟩
      (NewPacketDeduplicator 8)
      [(⟨"192.0.2.1:4000"⟩, [170, 1]), (⟨"192.0.2.2:4000"⟩, [170, 1]),
       (⟨"192.0.2.1:4000"⟩, [7])] [(⟨"192.0.2.3:4000"⟩, [170, 1])] [170, 1]
      ⟨⟨"198.51.100.9:9000"⟩, [170, 1]⟩ [9] (by decide)).2.2.1.trans (by decide)⟩

end muxer

/-! ## package demuxer: sessions -/

namespace demuxer

theorem makeToken_length (r : RandRead) : (makeToken r).length = 64 := by
  simp [makeToken, List.length_take, List.length_append, List.length_replicate]

theorem UDPAddr_text_injective (a1 a2 : UDPAddr) (h : a1.text = a2.text) : a1 = a2 := by
  cases a1
  cases a2
  simp_all

theorem GetSession_of_known (d : Demuxer) (addr : UDPAddr) (rnd : RandRead) (s : Bytes)
    (h : mapGet addr.text d.sessions = some s) : GetSession d addr rnd = (s, d) := by
  simp [GetSession, h]

theorem GetSession_of_unknown (d : Demuxer) (addr : UDPAddr) (rnd : RandRead)
    (h : mapGet addr.text d.sessions = none) :
    GetSession d addr rnd =
      (makeToken rnd, { d with sessions := mapSet addr.text (makeToken rnd) d.sessions }) := by
  simp [GetSession, h]

/-- C6. `Demuxer.GetSession` is lookup-or-generate. For an address already in the registry it
returns the stored token and leaves the Demuxer as it was. A second call for the same address
returns the token of the first and changes nothing. For an unknown address it returns a token of
exactly 64 bytes (the bytes `rand.Read` wrote, then zeros), stores it for that address, leaves
every other address and the sender table as they were; the error `rand.Read` reports has no
influence on the result. -/
theorem demuxer_GetSession_lookup_or_generate (d : Demuxer) (addr : UDPAddr)
    (rnd rnd2 : RandRead) :
    (∀ s, mapGet addr.text d.sessions = some s → GetSession d addr rnd = (s, d)) ∧
    GetSession (GetSession d addr rnd).2 addr rnd2 =
      ((GetSession d addr rnd).1, (GetSession d addr rnd).2) ∧
    (mapGet addr.text d.sessions = none →
      (GetSession d addr rnd).1.length = 64 ∧
      (GetSession d addr rnd).1 = makeToken rnd ∧
      mapGet addr.text (GetSession d addr rnd).2.sessions = some (GetSession d addr rnd).1 ∧
      (∀ other : UDPAddr, other ≠ addr →
        mapGet other.text (GetSession d addr rnd).2.sessions = mapGet other.text d.sessions) ∧
      (GetSession d addr rnd).2.senders = d.senders) ∧
    GetSession d addr ⟨rnd.written, true⟩ = GetSession d addr ⟨rnd.written, false⟩ := by
  refine ⟨?_, ?_, ?_, ?_⟩
  · intro s h
    exact GetSession_of_known d addr rnd s h
  · cases h : mapGet addr.text d.sessions with
    | some s =>
      rw [GetSession_of_known d addr rnd s h]
      exact GetSession_of_known d addr rnd2 s h
    | none =>
      rw [GetSession_of_unknown d addr rnd h]
      apply GetSession_of_known
      exact mapGet_mapSet_same _ _ _
  · intro h
    rw [GetSession_of_unknown d addr rnd h]
    refine ⟨makeToken_length rnd, rfl, mapGet_mapSet_same _ _ _, ?_, rfl⟩
    intro other hne
    apply mapGet_mapSet_other
    intro e
    exact hne (UDPAddr_text_injective _ _ e.symm)
  · cases h : mapGet addr.text d.sessions with
    | some s => simp [GetSession, h]
    | none => simp [GetSession, h, makeToken]

/-- C6 at a concrete input: an unknown peer while `rand.Read` fails after three bytes. -/
theorem demuxer_GetSession_witness :
    mapGet (UDPAddr.mk "203.0.113.5:6000").text (NewDemuxer 1).sessions = none ∧
    (GetSession (NewDemuxer 1) ⟨"203.0.113.5:6000"⟩ ⟨[1, 2, 3], true⟩).1.length = 64 :=
  ⟨rfl, ((demuxer_GetSession_lookup_or_generate (NewDemuxer 1) ⟨"203.0.113.5:6000"⟩
    ⟨[1, 2, 3], true⟩ ⟨[], false⟩).2.2.1 rfl).1⟩

/-- C7, the claim as stated fails. When `rand.Read` fails for two distinct peers and leaves the
buffer all zero both times, both peers are mapped to the token of 64 zero bytes; and when it
succeeds twice with the same 64 bytes, both peers are mapped to those bytes: `GetSession` never
compares a new token with the ones in the registry. -/
theorem demuxer_tokens_not_unique :
    ¬ TokensUnique (getSessions (NewDemuxer 1)
      [(⟨"203.0.113.5:6000"⟩, ⟨[], true⟩), (⟨"203.0.113.6:6000"⟩, ⟨[], true⟩)]) ∧
    ¬ TokensUnique (getSessions (NewDemuxer 1)
      [(⟨"203.0.113.5:6000"⟩, ⟨List.replicate 64 9, false⟩),
       (⟨"203.0.113.6:6000"⟩, ⟨List.replicate 64 9, false⟩)]) := by
  constructor
  · intro h
    have e := h ⟨"203.0.113.5:6000"⟩ ⟨"203.0.113.6:6000"⟩ (List.replicate 64 0)
      (by decide) (by decide)
    exact absurd e (by decide)
  · intro h
    have e := h ⟨"203.0.113.5:6000"⟩ ⟨"203.0.113.6:6000"⟩ (List.replicate 64 9)
      (by decide) (by decide)
    exact absurd e (by decide)

theorem getSessions_unique (calls : List (UDPAddr × RandRead)) (d : Demuxer)
    (hu : TokensUnique d)
    (hd : ∀ a t, mapGet a d.sessions = some t → ∀ c ∈ calls, c.1.text ≠ a → makeToken c.2 ≠ t)
    (h : calls.Pairwise (fun c1 c2 => c1.1 ≠ c2.1 → makeToken c1.2 ≠ makeToken c2.2)) :
    TokensUnique (getSessions d calls) := by
  induction calls generalizing d with
  | nil => exact hu
  | cons c rest ih =>
    rw [List.pairwise_cons] at h
    simp only [getSessions]
    cases hc : mapGet c.1.text d.sessions with
    | some s =>
      rw [GetSession_of_known d c.1 c.2 s hc]
      exact ih d hu (fun a t hat c2 hc2 => hd a t hat c2 (List.mem_cons_of_mem _ hc2)) h.2
    | none =>
      rw [GetSession_of_unknown d c.1 c.2 hc]
      have hget : ∀ a : String, ∀ t, mapGet a (mapSet c.1.text (makeToken c.2) d.sessions)
          = some t → (a = c.1.text ∧ t = makeToken c.2) ∨
            (a ≠ c.1.text ∧ mapGet a d.sessions = some t) := by
        intro a t hat
        by_cases e : c.1.text = a
        · subst e
          rw [mapGet_mapSet_same] at hat
          exact Or.inl ⟨rfl, (Option.some.inj hat).symm⟩
        · rw [mapGet_mapSet_other _ _ _ _ e] at hat
          exact Or.inr ⟨fun e2 => e e2.symm, hat⟩
      apply ih
      · intro a1 a2 t h1 h2
        rcases hget _ _ h1 with ⟨e1, t1⟩ | ⟨n1, g1⟩
        · rcases hget _ _ h2 with ⟨e2, _⟩ | ⟨n2, g2⟩
          · exact UDPAddr_text_injective _ _ (e1.trans e2.symm)
          · exact absurd t1.symm (hd _ _ g2 c (List.mem_cons_self _ _) (fun e => n2 e.symm))
        · rcases hget _ _ h2 with ⟨_, t2⟩ | ⟨_, g2⟩
          · exact absurd t2.symm (hd _ _ g1 c (List.mem_cons_self _ _) (fun e => n1 e.symm))
          · exact hu a1 a2 t g1 g2
      · intro a t hat c2 hc2 hne
        rcases hget _ _ hat with ⟨e1, t1⟩ | ⟨_, g1⟩
        · rw [t1]
          have hcc : c.1 ≠ c2.1 := by
            intro e
            apply hne
            rw [e1, e]
          exact fun e => h.1 c2 hc2 hcc e.symm
        · exact hd a t g1 c2 (List.mem_cons_of_mem _ hc2) hne
      · exact h.2

/-- C7, amended. When the tokens that `rand.Read` yields for distinct peers are distinct, the
registry never maps two distinct peer addresses to the same token, after any sequence of
`GetSession` calls from the start. -/
theorem demuxer_tokens_unique_of_distinct_draws (handshakeTimeout : Nat)
    (calls : List (UDPAddr × RandRead))
    (h : calls.Pairwise (fun c1 c2 => c1.1 ≠ c2.1 → makeToken c1.2 ≠ makeToken c2.2)) :
    TokensUnique (getSessions (NewDemuxer handshakeTimeout) calls) := by
  apply getSessions_unique calls _ _ _ h
  · intro a1 a2 t h1
    simp [NewDemuxer, mapGet] at h1
  · intro a t h1
    simp [NewDemuxer, mapGet] at h1

/-- C7 amended, at a concrete input: two peers whose tokens start with different bytes, and a
repeated call for the first. -/
theorem demuxer_tokens_unique_witness :
    TokensUnique (getSessions (NewDemuxer 1)
      [(⟨"203.0.113.5:6000"⟩, ⟨[1], false⟩), (⟨"203.0.113.6:6000"⟩, ⟨[2], false⟩),
       (⟨"203.0.113.5:6000"⟩, ⟨[3], false⟩)]) :=
  demuxer_tokens_unique_of_distinct_draws 1
    [(⟨"203.0.113.5:6000"⟩, ⟨[1], false⟩), (⟨"203.0.113.6:6000"⟩, ⟨[2], false⟩),
     (⟨"203.0.113.5:6000"⟩, ⟨[3], false⟩)] (by decide)

/-! ## package demuxer: the sender table -/

theorem senderKey_injective (t1 t2 : Bytes) (i1 i2 dial : UDPAddr)
    (hlen : t1.length = t2.length) (h : senderKey t1 i1 dial = senderKey t2 i2 dial) :
    t1 = t2 ∧ i1 = i2 := by
  have hd := congrArg String.data h
  simp only [senderKey, EncodeToString, String.data_append] at hd
  have h1 := List.append_cancel_right hd
  have h2 := List.append_cancel_right h1
  rw [List.append_assoc, List.append_assoc] at h2
  have hl : (hexChars t1).length = (hexChars t2).length := by
    rw [hexChars_length, hexChars_length, hlen]
  obtain ⟨h3, h4⟩ := List.append_inj h2 hl
  have h5 := List.append_cancel_left h4
  exact ⟨hexChars_injective _ _ h3, UDPAddr_text_injective _ _ (String.ext h5)⟩

theorem forIfaces_cons_old (dial senderAddr : UDPAddr) (session b : Bytes) (d : Demuxer)
    (iface : UDPAddr) (rest : List UDPAddr) (sd : Sender)
    (h : mapGet (senderKey session iface dial) d.senders = some sd) :
    forIfaces dial senderAddr session b d (iface :: rest) =
      ((forIfaces dial senderAddr session b d rest).1,
        Event.SenderWrite (senderKey session iface dial) b ::
          (forIfaces dial senderAddr session b d rest).2) := by
  simp [forIfaces, h]

theorem forIfaces_cons_new (dial senderAddr : UDPAddr) (session b : Bytes) (d : Demuxer)
    (iface : UDPAddr) (rest : List UDPAddr)
    (h : mapGet (senderKey session iface dial) d.senders = none) :
    forIfaces dial senderAddr session b d (iface :: rest) =
      ((forIfaces dial senderAddr session b
          { d with senders := (mapSet (senderKey session iface dial)
              ⟨session, iface, dial, senderAddr, d.handshakeTimeout⟩ d.senders) } rest).1,
        Event.NewSender (senderKey session iface dial) session iface dial ::
        Event.SenderWrite (senderKey session iface dial) b ::
          (forIfaces dial senderAddr session b
            { d with senders := (mapSet (senderKey session iface dial)
                ⟨session, iface, dial, senderAddr, d.handshakeTimeout⟩ d.senders) } rest).2) := by
  simp [forIfaces, h]

theorem forIfaces_writes (dial senderAddr : UDPAddr) (session b : Bytes) (d : Demuxer)
    (l : List UDPAddr) :
    writes (forIfaces dial senderAddr session b d l).2 =
      l.map (fun i => (senderKey session i dial, b)) := by
  induction l generalizing d with
  | nil => rfl
  | cons i rest ih =>
    cases h : mapGet (senderKey session i dial) d.senders with
    | some sd =>
      rw [forIfaces_cons_old _ _ _ _ _ _ _ sd h]
      simp [writes, ih]
    | none =>
      rw [forIfaces_cons_new _ _ _ _ _ _ _ h]
      simp [writes, ih]

theorem forIfaces_persist (dial senderAddr : UDPAddr) (session b : Bytes) (d : Demuxer)
    (l : List UDPAddr) (k : String) (sd : Sender) (hk : mapGet k d.senders = some sd) :
    mapGet k (forIfaces dial senderAddr session b d l).1.senders = some sd := by
  induction l generalizing d with
  | nil => exact hk
  | cons i rest ih =>
    cases h : mapGet (senderKey session i dial) d.senders with
    | some sd2 =>
      rw [forIfaces_cons_old _ _ _ _ _ _ _ sd2 h]
      exact ih d hk
    | none =>
      rw [forIfaces_cons_new _ _ _ _ _ _ _ h]
      apply ih
      have hne : senderKey session i dial ≠ k := by
        intro e
        rw [e, hk] at h
        cases h
      simp only
      rw [mapGet_mapSet_other _ _ _ _ hne]
      exact hk

theorem forIfaces_sessions (dial senderAddr : UDPAddr) (session b : Bytes) (d : Demuxer)
    (l : List UDPAddr) :
    (forIfaces dial senderAddr session b d l).1.sessions = d.sessions := by
  induction l generalizing d with
  | nil => rfl
  | cons i rest ih =>
    cases h : mapGet (senderKey session i dial) d.senders with
    | some sd =>
      rw [forIfaces_cons_old _ _ _ _ _ _ _ sd h]
      exact ih d
    | none =>
      rw [forIfaces_cons_new _ _ _ _ _ _ _ h]
      exact ih _

/-- After the loop every address of the snapshot has a sender under its key, made for this
token, this address and this dial address unless one was stored there before. -/
theorem forIfaces_has (dial senderAddr : UDPAddr) (session b : Bytes) (d : Demuxer)
    (l : List UDPAddr) (i : UDPAddr) (hi : i ∈ l) :
    ∃ sd, mapGet (senderKey session i dial) (forIfaces dial senderAddr session b d l).1.senders
      = some sd := by
  induction l generalizing d with
  | nil => simp at hi
  | cons i2 rest ih =>
    cases h : mapGet (senderKey session i2 dial) d.senders with
    | some sd2 =>
      rw [forIfaces_cons_old _ _ _ _ _ _ _ sd2 h]
      rcases List.mem_cons.1 hi with e | hmem
      · subst e
        exact ⟨sd2, forIfaces_persist _ _ _ _ d rest _ sd2 h⟩
      · exact ih d hmem
    | none =>
      rw [forIfaces_cons_new _ _ _ _ _ _ _ h]
      rcases List.mem_cons.1 hi with e | hmem
      · subst e
        exact ⟨_, forIfaces_persist _ _ _ _ _ rest _ _ (mapGet_mapSet_same _ _ _)⟩
      · exact ih _ hmem

theorem forIfaces_WellKeyed (dial senderAddr : UDPAddr) (session b : Bytes) (d : Demuxer)
    (l seen : List UDPAddr) (hlen : session.length = 64) (hw : WellKeyed dial seen d)
    (hl : ∀ i ∈ l, i ∈ seen) :
    WellKeyed dial seen (forIfaces dial senderAddr session b d l).1 := by
  induction l generalizing d with
  | nil => exact hw
  | cons i rest ih =>
    have hrest : ∀ i2 ∈ rest, i2 ∈ seen := fun i2 h2 => hl i2 (List.mem_cons_of_mem _ h2)
    cases h : mapGet (senderKey session i dial) d.senders with
    | some sd =>
      rw [forIfaces_cons_old _ _ _ _ _ _ _ sd h]
      exact ih d hw hrest
    | none =>
      rw [forIfaces_cons_new _ _ _ _ _ _ _ h]
      apply ih _ _ hrest
      refine ⟨?_, hw.2⟩
      intro k sd hk
      simp only at hk
      by_cases e : senderKey session i dial = k
      · subst e
        rw [mapGet_mapSet_same] at hk
        cases hk
        exact ⟨rfl, hlen, rfl, hl i (List.mem_cons_self _ _)⟩
      · rw [mapGet_mapSet_other _ _ _ _ e] at hk
        exact hw.1 k sd hk

theorem created_append (e1 e2 : List Event) : created (e1 ++ e2) = created e1 ++ created e2 := by
  induction e1 with
  | nil => rfl
  | cons e rest ih =>
    cases e with
    | NewSender k s i dl => simp [created, ih]
    | SenderWrite k c => simp [created, ih]

/-- The senders one run of the loop constructs: each was missing from the table before, is in
it afterwards, is made for the token of the datagram and an address of the snapshot, and none
is constructed twice. -/
theorem forIfaces_created (dial senderAddr : UDPAddr) (session b : Bytes) (d : Demuxer)
    (l : List UDPAddr) :
    (created (forIfaces dial senderAddr session b d l).2).Nodup ∧
    ∀ tr ∈ created (forIfaces dial senderAddr session b d l).2,
      mapGet (tripleKey tr) d.senders = none ∧
      (∃ sd, mapGet (tripleKey tr) (forIfaces dial senderAddr session b d l).1.senders
        = some sd) ∧
      tr.1 = session ∧ tr.2.1 ∈ l ∧ tr.2.2 = dial := by
  induction l generalizing d with
  | nil => simp [forIfaces, created]
  | cons i rest ih =>
    cases h : mapGet (senderKey session i dial) d.senders with
    | some sd =>
      rw [forIfaces_cons_old _ _ _ _ _ _ _ sd h]
      simp only [created]
      refine ⟨(ih d).1, ?_⟩
      intro tr htr
      obtain ⟨h1, h2, h3, h4, h5⟩ := (ih d).2 tr htr
      exact ⟨h1, h2, h3, List.mem_cons_of_mem _ h4, h5⟩
    | none =>
      rw [forIfaces_cons_new _ _ _ _ _ _ _ h]
      simp only [created]
      have ih2 := ih { d with senders := (mapSet (senderKey session i dial)
              ⟨session, i, dial, senderAddr, d.handshakeTimeout⟩ d.senders) }
      refine ⟨?_, ?_⟩
      · rw [List.nodup_cons]
        refine ⟨?_, ih2.1⟩
        intro hmem
        have hnone := (ih2.2 _ hmem).1
        simp only [tripleKey] at hnone
        rw [mapGet_mapSet_same] at hnone
        cases hnone
      · intro tr htr
        rcases List.mem_cons.1 htr with e | hmem
        · subst e
          refine ⟨h, ?_, rfl, List.mem_cons_self _ _, rfl⟩
          exact ⟨_, forIfaces_persist _ _ _ _ _ rest _ _ (mapGet_mapSet_same _ _ _)⟩
        · obtain ⟨h1, h2, h3, h4, h5⟩ := ih2.2 tr hmem
          refine ⟨?_, h2, h3, List.mem_cons_of_mem _ h4, h5⟩
          by_cases e : senderKey session i dial = tripleKey tr
          · rw [← e] at h1
            simp only at h1
            rw [mapGet_mapSet_same] at h1
            cases h1
          · simp only at h1
            rw [mapGet_mapSet_other _ _ _ _ e] at h1
            exact h1

theorem forIfaces_created_none (dial senderAddr : UDPAddr) (session b : Bytes) (d : Demuxer)
    (l : List UDPAddr)
    (h : ∀ i ∈ l, ∃ sd, mapGet (senderKey session i dial) d.senders = some sd) :
    created (forIfaces dial senderAddr session b d l).2 = [] := by
  induction l with
  | nil => rfl
  | cons i rest ih =>
    obtain ⟨sd, hsd⟩ := h i (List.mem_cons_self _ _)
    rw [forIfaces_cons_old _ _ _ _ _ _ _ sd hsd]
    simp only [created]
    exact ih (fun i2 h2 => h i2 (List.mem_cons_of_mem _ h2))

theorem forIfaces_created_one (dial senderAddr : UDPAddr) (session b : Bytes) (d : Demuxer)
    (l : List UDPAddr) (j : UDPAddr)
    (hold : ∀ i ∈ l, i ≠ j → ∃ sd, mapGet (senderKey session i dial) d.senders = some sd)
    (hnew : mapGet (senderKey session j dial) d.senders = none)
    (hcount : l.count j = 1) :
    created (forIfaces dial senderAddr session b d l).2 = [(session, j, dial)] := by
  induction l with
  | nil => simp at hcount
  | cons i rest ih =>
    by_cases e : i = j
    · subst e
      rw [forIfaces_cons_new _ _ _ _ _ _ _ hnew]
      simp only [created]
      have hc0 : rest.count i = 0 := by
        simp only [List.count_cons_self] at hcount
        omega
      have hnot : i ∉ rest := List.count_eq_zero.1 hc0
      rw [forIfaces_created_none]
      intro i2 h2
      have hne : i2 ≠ i := fun e2 => hnot (e2 ▸ h2)
      obtain ⟨sd, hsd⟩ := hold i2 (List.mem_cons_of_mem _ h2) hne
      refine ⟨sd, ?_⟩
      have hk : senderKey session i dial ≠ senderKey session i2 dial := by
        intro ek
        rw [ek, hsd] at hnew
        cases hnew
      simp only
      rw [mapGet_mapSet_other _ _ _ _ hk]
      exact hsd
    · obtain ⟨sd, hsd⟩ := hold i (List.mem_cons_self _ _) e
      rw [forIfaces_cons_old _ _ _ _ _ _ _ sd hsd]
      simp only [created]
      apply ih (fun i2 h2 => hold i2 (List.mem_cons_of_mem _ h2))
      rw [List.count_cons_of_ne (fun h => e h.symm)] at hcount
      exact hcount

theorem GetSession_senders (d : Demuxer) (a : UDPAddr) (r : RandRead) :
    (GetSession d a r).2.senders = d.senders := by
  cases h : mapGet a.text d.sessions with
  | some s => rw [GetSession_of_known d a r s h]
  | none => rw [GetSession_of_unknown d a r h]

theorem GetSession_stored (d : Demuxer) (a : UDPAddr) (r : RandRead) :
    mapGet a.text (GetSession d a r).2.sessions = some (GetSession d a r).1 := by
  cases h : mapGet a.text d.sessions with
  | some s => rw [GetSession_of_known d a r s h]; exact h
  | none => rw [GetSession_of_unknown d a r h]; exact mapGet_mapSet_same _ _ _

theorem GetSession_sessions_persist (d : Demuxer) (a : UDPAddr) (r : RandRead) (k : String)
    (t : Bytes) (hk : mapGet k d.sessions = some t) :
    mapGet k (GetSession d a r).2.sessions = some t := by
  cases h : mapGet a.text d.sessions with
  | some s => rw [GetSession_of_known d a r s h]; exact hk
  | none =>
    rw [GetSession_of_unknown d a r h]
    have hne : a.text ≠ k := by
      intro e
      rw [e, hk] at h
      cases h
    simp only
    rw [mapGet_mapSet_other _ _ _ _ hne]
    exact hk

theorem GetSession_WellKeyed (dial : UDPAddr) (seen : List UDPAddr) (d : Demuxer) (a : UDPAddr)
    (r : RandRead) (hw : WellKeyed dial seen d) :
    WellKeyed dial seen (GetSession d a r).2 ∧ (GetSession d a r).1.length = 64 := by
  cases h : mapGet a.text d.sessions with
  | some s =>
    rw [GetSession_of_known d a r s h]
    exact ⟨hw, hw.2 _ _ h⟩
  | none =>
    rw [GetSession_of_unknown d a r h]
    refine ⟨⟨hw.1, ?_⟩, makeToken_length r⟩
    intro k t hk
    simp only at hk
    by_cases e : a.text = k
    · subst e
      rw [mapGet_mapSet_same] at hk
      cases hk
      exact makeToken_length r
    · rw [mapGet_mapSet_other _ _ _ _ e] at hk
      exact hw.2 k t hk

theorem WellKeyed_mono (dial : UDPAddr) (seen seen2 : List UDPAddr) (d : Demuxer)
    (hsub : ∀ i ∈ seen, i ∈ seen2) (hw : WellKeyed dial seen d) : WellKeyed dial seen2 d := by
  refine ⟨?_, hw.2⟩
  intro k sd hk
  obtain ⟨h1, h2, h3, h4⟩ := hw.1 k sd hk
  exact ⟨h1, h2, h3, hsub _ h4⟩

theorem demux_handle_persist (dial : UDPAddr) (d : Demuxer) (x : Input) (k : String)
    (sd : Sender) (hk : mapGet k d.senders = some sd) :
    mapGet k (handle dial d x).1.senders = some sd := by
  unfold handle
  apply forIfaces_persist
  rw [GetSession_senders]
  exact hk

theorem demux_handle_sessions_persist (dial : UDPAddr) (d : Demuxer) (x : Input) (k : String)
    (t : Bytes) (hk : mapGet k d.sessions = some t) :
    mapGet k (handle dial d x).1.sessions = some t := by
  unfold handle
  rw [forIfaces_sessions]
  exact GetSession_sessions_persist d _ _ k t hk

theorem demux_handle_stored (dial : UDPAddr) (d : Demuxer) (x : Input) :
    mapGet x.senderAddr.text (handle dial d x).1.sessions =
      some (GetSession d x.senderAddr x.rnd).1 := by
  unfold handle
  rw [forIfaces_sessions]
  exact GetSession_stored d _ _

theorem demux_handle_WellKeyed (dial : UDPAddr) (seen : List UDPAddr) (d : Demuxer) (x : Input)
    (hw : WellKeyed dial seen d) (hl : ∀ i ∈ x.ifaces, i ∈ seen) :
    WellKeyed dial seen (handle dial d x).1 := by
  unfold handle
  have h := GetSession_WellKeyed dial seen d x.senderAddr x.rnd hw
  exact forIfaces_WellKeyed _ _ _ _ _ _ seen h.2 h.1 hl

theorem demux_run_append (dial : UDPAddr) (d : Demuxer) (pre post : List Input) :
    run dial d (pre ++ post) =
      ((run dial (run dial d pre).1 post).1,
        (run dial d pre).2 ++ (run dial (run dial d pre).1 post).2) := by
  induction pre generalizing d with
  | nil => simp [run]
  | cons x rest ih => simp [run, ih, List.append_assoc]

theorem reach_append (dial : UDPAddr) (timeout : Nat) (pre post : List Input) :
    reach dial timeout (pre ++ post) = (run dial (reach dial timeout pre) post).1 := by
  simp [reach, demux_run_append]

theorem reach_snoc (dial : UDPAddr) (timeout : Nat) (pre : List Input) (x : Input) :
    reach dial timeout (pre ++ [x]) = (handle dial (reach dial timeout pre) x).1 := by
  rw [reach_append]
  rfl

theorem demux_run_persist (dial : UDPAddr) (d : Demuxer) (inputs : List Input) (k : String)
    (sd : Sender) (hk : mapGet k d.senders = some sd) :
    mapGet k (run dial d inputs).1.senders = some sd := by
  induction inputs generalizing d with
  | nil => exact hk
  | cons x rest ih => exact ih _ (demux_handle_persist dial d x k sd hk)

theorem demux_run_sessions_persist (dial : UDPAddr) (d : Demuxer) (inputs : List Input)
    (k : String) (t : Bytes) (hk : mapGet k d.sessions = some t) :
    mapGet k (run dial d inputs).1.sessions = some t := by
  induction inputs generalizing d with
  | nil => exact hk
  | cons x rest ih => exact ih _ (demux_handle_sessions_persist dial d x k t hk)

theorem demux_run_WellKeyed (dial : UDPAddr) (seen : List UDPAddr) (d : Demuxer)
    (inputs : List Input) (hw : WellKeyed dial seen d) :
    WellKeyed dial (seen ++ snapshots inputs) (run dial d inputs).1 := by
  induction inputs generalizing d seen with
  | nil => simpa [snapshots, run] using hw
  | cons x rest ih =>
    have h1 : WellKeyed dial (seen ++ x.ifaces) (handle dial d x).1 := by
      apply demux_handle_WellKeyed
      · exact WellKeyed_mono dial seen _ d (fun i hi => List.mem_append_left _ hi) hw
      · exact fun i hi => List.mem_append_right _ hi
    have h2 := ih (seen ++ x.ifaces) (handle dial d x).1 h1
    simpa [snapshots, run, List.append_assoc] using h2

theorem reach_WellKeyed (dial : UDPAddr) (timeout : Nat) (hist : List Input) :
    WellKeyed dial (snapshots hist) (reach dial timeout hist) := by
  have h0 : WellKeyed dial [] (NewDemuxer timeout) := by
    constructor
    · intro k sd hk
      simp [NewDemuxer, mapGet] at hk
    · intro a t hk
      simp [NewDemuxer, mapGet] at hk
  simpa [reach] using demux_run_WellKeyed dial [] (NewDemuxer timeout) hist h0

theorem demux_run_created (dial : UDPAddr) (d : Demuxer) (inputs : List Input) :
    (created (run dial d inputs).2).Nodup ∧
    ∀ tr ∈ created (run dial d inputs).2,
      mapGet (tripleKey tr) d.senders = none ∧
      ∃ sd, mapGet (tripleKey tr) (run dial d inputs).1.senders = some sd := by
  induction inputs generalizing d with
  | nil => simp [run, created]
  | cons x rest ih =>
    simp only [run, created_append]
    have hf := forIfaces_created dial x.senderAddr (GetSession d x.senderAddr x.rnd).1 x.b
      (GetSession d x.senderAddr x.rnd).2 x.ifaces
    rw [GetSession_senders] at hf
    have hh : handle dial d x =
        forIfaces dial x.senderAddr (GetSession d x.senderAddr x.rnd).1 x.b
          (GetSession d x.senderAddr x.rnd).2 x.ifaces := rfl
    rw [← hh] at hf
    have ih2 := ih (handle dial d x).1
    refine ⟨?_, ?_⟩
    · rw [List.nodup_append]
      refine ⟨hf.1, ih2.1, ?_⟩
      intro tr h1 h2
      obtain ⟨sd, hsd⟩ := (hf.2 tr h1).2.1
      have hn := (ih2.2 tr h2).1
      rw [hsd] at hn
      cases hn
    · intro tr htr
      rcases List.mem_append.1 htr with h1 | h2
      · obtain ⟨hnone, ⟨sd, hsd⟩, _⟩ := hf.2 tr h1
        exact ⟨hnone, sd, demux_run_persist dial _ rest _ sd hsd⟩
      · obtain ⟨hnone, hsome⟩ := ih2.2 tr h2
        refine ⟨?_, hsome⟩
        cases hq : mapGet (tripleKey tr) d.senders with
        | none => rfl
        | some sd =>
          rw [demux_handle_persist dial d x _ sd hq] at hnone
          cases hnone

/-- A sender found in a well-keyed table under the key of a 64-byte token and an interface is
the sender of that token and that interface. -/
theorem sender_of_key (dial : UDPAddr) (seen : List UDPAddr) (d : Demuxer) (session : Bytes)
    (i : UDPAddr) (sd : Sender) (hw : WellKeyed dial seen d) (hlen : session.length = 64)
    (hk : mapGet (senderKey session i dial) d.senders = some sd) :
    sd.session = session ∧ sd.iface = i ∧ sd.dial = dial ∧ sd.iface ∈ seen := by
  obtain ⟨h1, h2, h3, h4⟩ := hw.1 _ sd hk
  obtain ⟨e1, e2⟩ := senderKey_injective session sd.session i sd.iface dial
    (by rw [hlen, h2]) h1
  exact ⟨e1.symm, e2.symm, h3, h4⟩

theorem handle_WellKeyed_reach (dial : UDPAddr) (timeout : Nat) (hist : List Input)
    (x : Input) :
    WellKeyed dial (snapshots (hist ++ [x])) (handle dial (reach dial timeout hist) x).1 := by
  rw [← reach_snoc]
  exact reach_WellKeyed dial timeout (hist ++ [x])

theorem session_length_reach (dial : UDPAddr) (timeout : Nat) (hist : List Input)
    (a : UDPAddr) (r : RandRead) :
    (GetSession (reach dial timeout hist) a r).1.length = 64 :=
  (GetSession_WellKeyed dial _ _ a r (reach_WellKeyed dial timeout hist)).2

theorem handle_writes (dial : UDPAddr) (d : Demuxer) (x : Input) :
    writes (handle dial d x).2 =
      x.ifaces.map (fun i => (senderKey (GetSession d x.senderAddr x.rnd).1 i dial, x.b)) := by
  unfold handle
  exact forIfaces_writes _ _ _ _ _ _

/-- C5. Multipath fan-out. After any earlier datagrams `hist`, for the datagram `x.b` read from
`x.senderAddr` while the membership snapshot is `x.ifaces`: the `Write` calls are, in order, one
per element of the snapshot, each with the payload `x.b` on the sender stored under the key of
the peer's token and that address, so there are exactly as many as the snapshot has addresses;
the token is the one the registry holds for the peer; the sender stored under such a key is the
sender of that token, that address and the dial address; and a `Write` goes to no sender of an
address outside the snapshot, to no sender of another token, and carries no other payload. -/
theorem demuxer_fan_out (dial : UDPAddr) (timeout : Nat) (hist : List Input) (x : Input) :
    writes (handle dial (reach dial timeout hist) x).2 =
      x.ifaces.map (fun i =>
        (senderKey (GetSession (reach dial timeout hist) x.senderAddr x.rnd).1 i dial, x.b)) ∧
    (writes (handle dial (reach dial timeout hist) x).2).length = x.ifaces.length ∧
    mapGet x.senderAddr.text (handle dial (reach dial timeout hist) x).1.sessions =
      some (GetSession (reach dial timeout hist) x.senderAddr x.rnd).1 ∧
    (∀ i ∈ x.ifaces, ∃ sd,
      mapGet (senderKey (GetSession (reach dial timeout hist) x.senderAddr x.rnd).1 i dial)
        (handle dial (reach dial timeout hist) x).1.senders = some sd ∧
      sd.session = (GetSession (reach dial timeout hist) x.senderAddr x.rnd).1 ∧
      sd.iface = i ∧ sd.dial = dial) ∧
    (∀ k sd c, mapGet k (handle dial (reach dial timeout hist) x).1.senders = some sd →
      (k, c) ∈ writes (handle dial (reach dial timeout hist) x).2 →
      sd.iface ∈ x.ifaces ∧
      sd.session = (GetSession (reach dial timeout hist) x.senderAddr x.rnd).1 ∧ c = x.b) := by
  have hw := handle_WellKeyed_reach dial timeout hist x
  have hlen := session_length_reach dial timeout hist x.senderAddr x.rnd
  refine ⟨handle_writes dial _ x, ?_, demux_handle_stored dial _ x, ?_, ?_⟩
  · rw [handle_writes, List.length_map]
  · intro i hi
    obtain ⟨sd, hsd⟩ := forIfaces_has dial x.senderAddr
      (GetSession (reach dial timeout hist) x.senderAddr x.rnd).1 x.b
      (GetSession (reach dial timeout hist) x.senderAddr x.rnd).2 x.ifaces i hi
    have hsd2 : mapGet
        (senderKey (GetSession (reach dial timeout hist) x.senderAddr x.rnd).1 i dial)
        (handle dial (reach dial timeout hist) x).1.senders = some sd := hsd
    obtain ⟨e1, e2, e3, _⟩ := sender_of_key dial _ _ _ i sd hw hlen hsd2
    exact ⟨sd, hsd2, e1, e2, e3⟩
  · intro k sd c hk hmem
    rw [handle_writes] at hmem
    obtain ⟨i, hi, hic⟩ := List.mem_map.1 hmem
    simp only [Prod.mk.injEq] at hic
    obtain ⟨hik, hc⟩ := hic
    rw [← hik] at hk
    obtain ⟨e1, e2, _, _⟩ := sender_of_key dial _ _ _ i sd hw hlen hk
    exact ⟨e2 ▸ hi, e1, hc.symm⟩

/-- C5 at a concrete input: a first datagram while two interfaces are active. -/
theorem demuxer_fan_out_witness :
    (writes (handle ⟨"198.51.100.9:9000"⟩ (reach ⟨"198.51.100.9:9000"⟩ 1 [])
      ⟨⟨"203.0.113.5:6000"⟩, [7, 8], [⟨"10.0.0.1:0"⟩, ⟨"10.0.1.1:0"⟩], ⟨[], false⟩⟩).2).length
      = 2 :=
  (demuxer_fan_out ⟨"198.51.100.9:9000"⟩ 1 []
    ⟨⟨"203.0.113.5:6000"⟩, [7, 8], [⟨"10.0.0.1:0"⟩, ⟨"10.0.1.1:0"⟩], ⟨[], false⟩⟩).2.1

/-- C9. The Path Sender table of the Demuxer, for every sequence of inputs from the start.
(1) No (token, interface, remote destination) triple is given to `NewSender` twice.
(2) For tokens of 64 bytes and the fixed dial address the key determines token and interface.
(3) Every sender of the table is stored under the key of its own 64-byte token, its interface
and the dial address.
(4) An entry of the table after a prefix of the inputs is the same entry at the end.
(5) When a peer has sent a datagram and later sends another while the snapshot holds one
address `j` that was in no snapshot before, once, and otherwise only addresses of that earlier
snapshot, exactly one sender is constructed, the one for the peer's token and `j`.
(6) A sender whose interface is not in the snapshot of a datagram receives no `Write` for that
datagram. -/
theorem demuxer_sender_table (dial : UDPAddr) (timeout : Nat) (inputs : List Input) :
    (created (run dial (NewDemuxer timeout) inputs).2).Nodup ∧
    (∀ t1 t2 : Bytes, ∀ i1 i2 : UDPAddr, t1.length = 64 → t2.length = 64 →
      senderKey t1 i1 dial = senderKey t2 i2 dial → t1 = t2 ∧ i1 = i2) ∧
    (∀ k sd, mapGet k (reach dial timeout inputs).senders = some sd →
      k = senderKey sd.session sd.iface dial ∧ sd.session.length = 64 ∧ sd.dial = dial) ∧
    (∀ pre post k sd, inputs = pre ++ post →
      mapGet k (reach dial timeout pre).senders = some sd →
      mapGet k (reach dial timeout inputs).senders = some sd) ∧
    (∀ pre x mid y j, inputs = pre ++ x :: (mid ++ [y]) →
      y.senderAddr = x.senderAddr →
      j ∉ snapshots (pre ++ x :: mid) →
      y.ifaces.count j = 1 →
      (∀ i ∈ y.ifaces, i ≠ j → i ∈ x.ifaces) →
      created (handle dial (reach dial timeout (pre ++ x :: mid)) y).2 =
        [((GetSession (reach dial timeout pre) x.senderAddr x.rnd).1, j, dial)]) ∧
    (∀ pre x post i, inputs = pre ++ x :: post → i ∉ x.ifaces →
      ∀ k sd c, mapGet k (handle dial (reach dial timeout pre) x).1.senders = some sd →
        sd.iface = i → (k, c) ∉ writes (handle dial (reach dial timeout pre) x).2) := by
  refine ⟨(demux_run_created dial _ inputs).1, ?_, ?_, ?_, ?_, ?_⟩
  · intro t1 t2 i1 i2 h1 h2 hk
    exact senderKey_injective t1 t2 i1 i2 dial (by rw [h1, h2]) hk
  · intro k sd hk
    obtain ⟨h1, h2, h3, _⟩ := (reach_WellKeyed dial timeout inputs).1 k sd hk
    exact ⟨h1, h2, h3⟩
  · intro pre post k sd hin hk
    rw [hin, reach_append]
    exact demux_run_persist dial _ post k sd hk
  · intro pre x mid y j _ hpeer hj hcount hold
    have hsplit : pre ++ x :: mid = (pre ++ [x]) ++ mid := by simp
    have hsess : mapGet x.senderAddr.text (reach dial timeout (pre ++ x :: mid)).sessions =
        some (GetSession (reach dial timeout pre) x.senderAddr x.rnd).1 := by
      rw [hsplit, reach_append, reach_snoc]
      exact demux_run_sessions_persist dial _ mid _ _ (demux_handle_stored dial _ x)
    have hw := reach_WellKeyed dial timeout (pre ++ x :: mid)
    have hlen := session_length_reach dial timeout pre x.senderAddr x.rnd
    have hget : GetSession (reach dial timeout (pre ++ x :: mid)) y.senderAddr y.rnd =
        ((GetSession (reach dial timeout pre) x.senderAddr x.rnd).1,
          reach dial timeout (pre ++ x :: mid)) := by
      rw [hpeer]
      exact GetSession_of_known _ _ _ _ hsess
    unfold handle
    rw [hget]
    apply forIfaces_created_one
    · intro i hi hne
      obtain ⟨sd, hsd⟩ := forIfaces_has dial x.senderAddr
        (GetSession (reach dial timeout pre) x.senderAddr x.rnd).1 x.b
        (GetSession (reach dial timeout pre) x.senderAddr x.rnd).2 x.ifaces i (hold i hi hne)
      have hsd2 : mapGet
          (senderKey (GetSession (reach dial timeout pre) x.senderAddr x.rnd).1 i dial)
          (handle dial (reach dial timeout pre) x).1.senders = some sd := hsd
      refine ⟨sd, ?_⟩
      rw [hsplit, reach_append, reach_snoc]
      exact demux_run_persist dial _ mid _ sd hsd2
    · cases hq : mapGet
          (senderKey (GetSession (reach dial timeout pre) x.senderAddr x.rnd).1 j dial)
          (reach dial timeout (pre ++ x :: mid)).senders with
      | none => rfl
      | some sd =>
        obtain ⟨_, e2, _, e4⟩ := sender_of_key dial _ _ _ j sd hw hlen hq
        rw [e2] at e4
        exact absurd e4 hj
    · exact hcount
  · intro pre x post i _ hi k sd c hk hiface hmem
    have hw := handle_WellKeyed_reach dial timeout pre x
    have hlen := session_length_reach dial timeout pre x.senderAddr x.rnd
    rw [handle_writes] at hmem
    obtain ⟨i2, hi2, hic⟩ := List.mem_map.1 hmem
    simp only [Prod.mk.injEq] at hic
    rw [← hic.1] at hk
    obtain ⟨_, e2, _, _⟩ := sender_of_key dial _ _ _ i2 sd hw hlen hk
    apply hi
    rw [← hiface, e2]
    exact hi2

/-- C9 at a concrete input: a peer sends one datagram while `10.0.0.1` is the only interface and
a second one after `10.0.1.1` has joined; the second constructs the sender for `10.0.1.1` and no
other. -/
theorem demuxer_sender_table_witness :
    created (handle ⟨"198.51.100.9:9000"⟩
      (reach ⟨"198.51.100.9:9000"⟩ 1
        ([] ++ (⟨⟨"203.0.113.5:6000"⟩, [7], [⟨"10.0.0.1:0"⟩], ⟨[5], false⟩⟩ : Input) :: []))
      ⟨⟨"203.0.113.5:6000"⟩, [8], [⟨"10.0.0.1:0"⟩, ⟨"10.0.1.1:0"⟩], ⟨[6], false⟩⟩).2 =
      [((GetSession (reach ⟨"198.51.100.9:9000"⟩ 1 []) ⟨"203.0.113.5:6000"⟩ ⟨[5], false⟩).1,
        ⟨"10.0.1.1:0"⟩, ⟨"198.51.100.9:9000"⟩)] :=
  (demuxer_sender_table ⟨"198.51.100.9:9000"⟩ 1
    ([] ++ (⟨⟨"203.0.113.5:6000"⟩, [7], [⟨"10.0.0.1:0"⟩], ⟨[5], false⟩⟩ : Input) ::
      ([] ++ [⟨⟨"203.0.113.5:6000"⟩, [8], [⟨"10.0.0.1:0"⟩, ⟨"10.0.1.1:0"⟩],
        ⟨[6], false⟩⟩]))).2.2.2.2.1
    [] ⟨⟨"203.0.113.5:6000"⟩, [7], [⟨"10.0.0.1:0"⟩], ⟨[5], false⟩⟩ []
    ⟨⟨"203.0.113.5:6000"⟩, [8], [⟨"10.0.0.1:0"⟩, ⟨"10.0.1.1:0"⟩], ⟨[6], false⟩⟩
    ⟨"10.0.1.1:0"⟩ rfl rfl (by decide) (by decide) (by decide)

end demuxer

/-! ## package networking: the Auto-Binder -/

namespace networking

/-- C8, the code at the failing input. `source()` reports one interface with the address
`10.0.0.1` at `Bind` and again at the first poll, and `tryDial` succeeds. Each call of
`getAddresses` makes a new `&net.UDPAddr` (cells 0 and 1) and the sets are keyed by the pointer,
so the poll calls `sub` for the old cell and `add` for the new one although the address is in
both snapshots. -/
theorem autobinder_unchanged_poll_fires :
    (Bind ⟨Except.ok [⟨Except.ok [Addr.IPNet [10, 0, 0, 1]]⟩], fun _ => true⟩ 0).2 =
      [Event.add ⟨0, [10, 0, 0, 1], 0⟩] ∧
    (poll (Bind ⟨Except.ok [⟨Except.ok [Addr.IPNet [10, 0, 0, 1]]⟩], fun _ => true⟩ 0).1
        ⟨Except.ok [⟨Except.ok [Addr.IPNet [10, 0, 0, 1]]⟩], fun _ => true⟩).2 =
      [Event.sub ⟨0, [10, 0, 0, 1], 0⟩, Event.add ⟨1, [10, 0, 0, 1], 0⟩] ∧
    ips (Bind ⟨Except.ok [⟨Except.ok [Addr.IPNet [10, 0, 0, 1]]⟩], fun _ => true⟩ 0).1.currAddrs =
      ips (poll (Bind ⟨Except.ok [⟨Except.ok [Addr.IPNet [10, 0, 0, 1]]⟩], fun _ => true⟩ 0).1
        ⟨Except.ok [⟨Except.ok [Addr.IPNet [10, 0, 0, 1]]⟩], fun _ => true⟩).1.currAddrs := by
  decide

/-- C10. Auto-Binder poll failure. A poll cycle whose `source()` returns an error invokes
neither `add` nor `sub` and leaves the snapshot (and every other variable of the goroutine) as
it was; the loop goes on, so that what follows the failed cycle is what would have followed
without it: the next successful poll is diffed against the snapshot from before the failure. -/
theorem autobinder_poll_failure (st : Binder) (err : String) (tryDial : UDPAddrPtr → Bool)
    (rest : List Tick) :
    poll st ⟨Except.error err, tryDial⟩ = (st, []) ∧
    (poll st ⟨Except.error err, tryDial⟩).1.currAddrSet = st.currAddrSet ∧
    loop st (Tick.after ⟨Except.error err, tryDial⟩ :: rest) = loop st rest ∧
    (∀ p : Poll, (loop st [Tick.after ⟨Except.error err, tryDial⟩, Tick.after p]).2 =
      (poll st p).2) := by
  have h : poll st ⟨Except.error err, tryDial⟩ = (st, []) := rfl
  refine ⟨h, by rw [h], ?_, ?_⟩
  · simp [loop, h]
  · intro p
    simp [loop, h]

end networking
